import Mathlib

/-!
A verification development for `chformat.py`: a tolerant JSON record
extractor (`extract_records`) together with a console record formatter
(`format_record`).  Python values, the relevant `str` methods, the
`json` module's scanner and `textwrap.wrap` are shallowly embedded as
executable Lean functions over `List Char`.
-/

set_option maxHeartbeats 1600000

namespace Chformat

/-- JSON whitespace characters: the set `' \t\n\r'` used by CPython's
`json` scanner and decoder. -/
def isJsonWs (c : Char) : Bool :=
  c == '\t' || c == '\n' || c == '\r' || c == ' '

/-- Characters treated as whitespace by Python `str.strip` / `str.split`
(the ASCII fragment plus `\x1c`-`\x1f`, NEL and NBSP; the development
only ever evaluates these helpers on such characters). -/
def isPyWs (c : Char) : Bool :=
  c == '\t' || c == '\n' || c == '\x0b' || c == '\x0c' || c == '\r' || c == ' ' ||
  c == '\x1c' || c == '\x1d' || c == '\x1e' || c == '\x1f' || c == '\x85' || c == '\xa0'

/-- Python `str.lstrip()` (no argument: strip leading whitespace). -/
def pyLstrip (cs : List Char) : List Char :=
  cs.dropWhile isPyWs

/-- Python `str.rstrip()` (no argument: strip trailing whitespace). -/
def pyRstrip (cs : List Char) : List Char :=
  (cs.reverse.dropWhile isPyWs).reverse

/-- Python `str.strip()`: strip whitespace from both ends. -/
def pyStrip (cs : List Char) : List Char :=
  pyLstrip (pyRstrip cs)

/-- Python `str.rstrip(",")`: strip every trailing comma. -/
def rstripCommas (cs : List Char) : List Char :=
  (cs.reverse.dropWhile (· == ',')).reverse

/-- The cleaning step `text.strip().rstrip(",")` shared by extraction
strategies 2 and 3 of `extract_records`. -/
def cleanPiece (cs : List Char) : List Char :=
  rstripCommas (pyStrip cs)

/-- Worker for `pySplit`; `cur` holds the current word reversed. -/
def splitWsGo (cur : List Char) : List Char → List (List Char)
  | [] => if cur.isEmpty then [] else [cur.reverse]
  | c :: rest =>
    if isPyWs c then
      if cur.isEmpty then splitWsGo [] rest else cur.reverse :: splitWsGo [] rest
    else splitWsGo (c :: cur) rest

/-- Python `str.split()` (no argument): split on runs of whitespace,
discarding empty pieces. -/
def pySplit (cs : List Char) : List (List Char) :=
  splitWsGo [] cs

/-- Line-break characters recognised by Python `str.splitlines`. -/
def isLineBreak (c : Char) : Bool :=
  c == '\n' || c == '\r' || c == '\x0b' || c == '\x0c' || c == '\x1c' ||
  c == '\x1d' || c == '\x1e' || c == '\x85' || c == '\u2028' || c == '\u2029'

/-- Worker for `pySplitlines`; `cur` holds the current line reversed. -/
def splitlinesGo (cur : List Char) : List Char → List (List Char)
  | [] => if cur.isEmpty then [] else [cur.reverse]
  | '\r' :: '\n' :: rest => cur.reverse :: splitlinesGo [] rest
  | c :: rest =>
    if isLineBreak c then cur.reverse :: splitlinesGo [] rest
    else splitlinesGo (c :: cur) rest

/-- Python `str.splitlines()` (keepends false). -/
def pySplitlines (cs : List Char) : List (List Char) :=
  splitlinesGo [] cs

/-- Python `" ".join(words)`. -/
def joinSpaces (ws : List (List Char)) : List Char :=
  match ws with
  | [] => []
  | w :: rest => w ++ (rest.map (fun x => ' ' :: x)).flatten

/-- JSON values as produced by CPython's `json.loads`.  Integer literals
become `num`; literals with a fraction or exponent become the float
`flt m e` denoting `m * 10 ^ e` (an exact-decimal stand-in for the IEEE
double Python would build; no theorem below depends on float rounding).
`nan` and `inf` model the `NaN`/`Infinity`/`-Infinity` constants that
CPython's decoder accepts. -/
inductive Json where
  | null : Json
  | bool (b : Bool) : Json
  | num (n : Int) : Json
  | flt (m : Int) (e : Int) : Json
  | nan : Json
  | inf (neg : Bool) : Json
  | str (s : List Char) : Json
  | arr (elems : List Json) : Json
  | obj (pairs : List (List Char × Json)) : Json
deriving Repr

/-- Python exception classes relevant to `chformat.py`. -/
inductive PyErr where
  | jsonDecodeError : PyErr
  | valueError : PyErr
  | typeError : PyErr
  | indexError : PyErr
deriving DecidableEq, Repr

/-- Skip JSON whitespace (the decoder's `_w(s, idx).end()`). -/
def skipJsonWs (cs : List Char) : List Char :=
  cs.dropWhile isJsonWs

/-- Take a maximal run of ASCII digits (regex `\d*`). -/
def munchDigits : List Char → List Char × List Char
  | [] => ([], [])
  | c :: rest =>
    if c.isDigit then
      let (ds, r) := munchDigits rest
      (c :: ds, r)
    else ([], c :: rest)

/-- Numeric value of a digit string. -/
def digitsToNat (ds : List Char) : Nat :=
  ds.foldl (fun a c => a * 10 + (c.toNat - 48)) 0

/-- Integer part of CPython's `NUMBER_RE`: `(?:0|[1-9]\d*)` (a leading
zero is never followed by more digits). -/
def intPartTok : List Char → Option (List Char × List Char)
  | '0' :: rest => some (['0'], rest)
  | c :: rest =>
    if c.isDigit then
      let (ds, r) := munchDigits rest
      some (c :: ds, r)
    else none
  | [] => none

/-- Optional fraction `(\.\d+)?`: consumed only when the dot is followed
by at least one digit. -/
def fracTok (cs : List Char) : Option (List Char) × List Char :=
  match cs with
  | '.' :: rest =>
    match munchDigits rest with
    | ([], _) => (none, cs)
    | (ds, r) => (some ds, r)
  | _ => (none, cs)

/-- Optional exponent `([eE][-+]?\d+)?`: consumed only when digits follow. -/
def expTok (cs : List Char) : Option (Bool × List Char) × List Char :=
  match cs with
  | c :: rest =>
    if c == 'e' || c == 'E' then
      match rest with
      | s :: rest2 =>
        if s == '+' || s == '-' then
          match munchDigits rest2 with
          | ([], _) => (none, cs)
          | (ds, r) => (some (s == '-', ds), r)
        else
          match munchDigits rest with
          | ([], _) => (none, cs)
          | (ds, r) => (some (false, ds), r)
      | [] => (none, cs)
    else (none, cs)
  | [] => (none, cs)

/-- Build the `Json` number from the matched parts: `int(...)` when no
fraction or exponent is present, else the decimal float `m * 10 ^ e`. -/
def numValue (neg : Bool) (ip : List Char) (fr : Option (List Char))
    (ex : Option (Bool × List Char)) : Json :=
  match fr, ex with
  | none, none =>
    let n : Int := Int.ofNat (digitsToNat ip)
    Json.num (if neg then -n else n)
  | _, _ =>
    let fds := fr.getD []
    let m0 : Int := Int.ofNat (digitsToNat (ip ++ fds))
    let m : Int := if neg then -m0 else m0
    let e : Int := (match ex with
      | none => 0
      | some (eneg, eds) =>
        let v : Int := Int.ofNat (digitsToNat eds)
        if eneg then -v else v) - Int.ofNat fds.length
    Json.flt m e

/-- Match CPython's `NUMBER_RE` at the head of `cs` and build the value. -/
def numTok (cs : List Char) : Option (Json × List Char) :=
  let (isNeg, body) := match cs with
    | '-' :: tl => (true, tl)
    | _ => (false, cs)
  match intPartTok body with
  | none => none
  | some (ip, cs2) =>
    let (fr, cs3) := fracTok cs2
    let (ex, cs4) := expTok cs3
    some (numValue isNeg ip fr ex, cs4)

/-- Value of one hex digit, if any. -/
def hexVal (c : Char) : Option Nat :=
  if '0' ≤ c ∧ c ≤ '9' then some (c.toNat - 48)
  else if 'a' ≤ c ∧ c ≤ 'f' then some (c.toNat - 87)
  else if 'A' ≤ c ∧ c ≤ 'F' then some (c.toNat - 55)
  else none

/-- Value of a four-digit hex escape, if well formed. -/
def hex4 (a b c d : Char) : Option Nat := do
  let x ← hexVal a
  let y ← hexVal b
  let z ← hexVal c
  let w ← hexVal d
  pure (((x * 16 + y) * 16 + z) * 16 + w)

/-- Single-character JSON backslash escapes. -/
def escChar : Char → Option Char
  | '"' => some '"'
  | '\\' => some '\\'
  | '/' => some '/'
  | 'b' => some '\x08'
  | 'f' => some '\x0c'
  | 'n' => some '\n'
  | 'r' => some '\r'
  | 't' => some '\t'
  | _ => none

/-- Stand-in for a lone surrogate code unit, which Python keeps in the
`str` but a Lean `Char` cannot hold; no theorem depends on this corner. -/
def surrogateStandIn : Char := '�'

/-- CPython `py_scanstring` after the opening quote (`strict=True`):
`acc` holds the decoded chars reversed; returns the decoded string and
the text after the closing quote.  The fuel argument is only a
termination device: every step consumes at least one character, so
callers pass `length + 1` and the `0` case is unreachable. -/
def parseStringBody (fuel : Nat) (acc : List Char) (cs : List Char) :
    Option (List Char × List Char) :=
  match fuel with
  | 0 => none
  | f + 1 =>
    match cs with
    | [] => none
    | '"' :: rest => some (acc.reverse, rest)
    | '\\' :: 'u' :: a :: b :: c :: d :: rest =>
      match hex4 a b c d with
      | none => none
      | some n =>
        if 0xD800 ≤ n ∧ n ≤ 0xDBFF then
          match rest with
          | '\\' :: 'u' :: a2 :: b2 :: c2 :: d2 :: rest2 =>
            match hex4 a2 b2 c2 d2 with
            | some m =>
              if 0xDC00 ≤ m ∧ m ≤ 0xDFFF then
                parseStringBody f
                  (Char.ofNat (0x10000 + (n - 0xD800) * 0x400 + (m - 0xDC00)) :: acc) rest2
              else parseStringBody f (surrogateStandIn :: acc) rest
            | none => parseStringBody f (surrogateStandIn :: acc) rest
          | _ => parseStringBody f (surrogateStandIn :: acc) rest
        else if 0xDC00 ≤ n ∧ n ≤ 0xDFFF then parseStringBody f (surrogateStandIn :: acc) rest
        else parseStringBody f (Char.ofNat n :: acc) rest
    | '\\' :: e :: rest =>
      match escChar e with
      | some c => parseStringBody f (c :: acc) rest
      | none => none
    | c :: rest =>
      if c.toNat < 0x20 then none else parseStringBody f (c :: acc) rest

/-- Run `parseStringBody` with its ample fuel. -/
def parseString (cs : List Char) : Option (List Char × List Char) :=
  parseStringBody (cs.length + 1) [] cs

/-- Consume `pre` as a literal prefix of `cs`. -/
def stripPre (pre cs : List Char) : Option (List Char) :=
  match pre, cs with
  | [], rest => some rest
  | p :: ps, c :: rest => if p == c then stripPre ps rest else none
  | _ :: _, [] => none

/-- Insert a key into a Python dict held as an association list: an
existing key keeps its position and gets the new value, a new key is
appended (CPython `dict` update order). -/
def dictInsert (pairs : List (List Char × Json)) (k : List Char) (v : Json) :
    List (List Char × Json) :=
  match pairs with
  | [] => [(k, v)]
  | (k0, v0) :: rest =>
    if k0 = k then (k0, v) :: rest else (k0, v0) :: dictInsert rest k v

/-- `dict(pairs)` over the parsed member list. -/
def dictOfPairs (ps : List (List Char × Json)) : List (List Char × Json) :=
  ps.foldl (fun acc p => dictInsert acc p.1 p.2) []

mutual

/-- CPython `_scan_once(string, idx)`: decode one JSON value starting
exactly at the head of `cs` (no leading whitespace skip); the branch
order matches the scanner: string, object, array, `null`, `true`,
`false`, number, `NaN`, `Infinity`, `-Infinity`. -/
def parseVal (fuel : Nat) (cs : List Char) : Option (Json × List Char) :=
  match fuel with
  | 0 => none
  | f + 1 =>
    match cs with
    | '"' :: rest => (parseString rest).map (fun p => (Json.str p.1, p.2))
    | '{' :: rest =>
      match skipJsonWs rest with
      | '}' :: r2 => some (Json.obj [], r2)
      | r1 => parseMembers f r1 []
    | '[' :: rest =>
      match skipJsonWs rest with
      | ']' :: r2 => some (Json.arr [], r2)
      | r1 => parseElems f r1 []
    | _ =>
      match stripPre "null".data cs with
      | some rest => some (Json.null, rest)
      | none =>
      match stripPre "true".data cs with
      | some rest => some (Json.bool true, rest)
      | none =>
      match stripPre "false".data cs with
      | some rest => some (Json.bool false, rest)
      | none =>
      match numTok cs with
      | some p => some p
      | none =>
      match stripPre "NaN".data cs with
      | some rest => some (Json.nan, rest)
      | none =>
      match stripPre "Infinity".data cs with
      | some rest => some (Json.inf false, rest)
      | none =>
      match stripPre "-Infinity".data cs with
      | some rest => some (Json.inf true, rest)
      | none => none

/-- CPython `JSONArray` element loop, entered after `[` and leading
whitespace when the array is not empty. -/
def parseElems (fuel : Nat) (cs : List Char) (acc : List Json) :
    Option (Json × List Char) :=
  match fuel with
  | 0 => none
  | f + 1 =>
    match parseVal f cs with
    | none => none
    | some (v, r1) =>
      match skipJsonWs r1 with
      | ']' :: r3 => some (Json.arr (acc ++ [v]), r3)
      | ',' :: r3 => parseElems f (skipJsonWs r3) (acc ++ [v])
      | _ => none

/-- CPython `JSONObject` member loop, entered after `{` and leading
whitespace when the object is not empty. -/
def parseMembers (fuel : Nat) (cs : List Char) (acc : List (List Char × Json)) :
    Option (Json × List Char) :=
  match fuel with
  | 0 => none
  | f + 1 =>
    match cs with
    | '"' :: rest =>
      match parseString rest with
      | none => none
      | some (k, r1) =>
        match skipJsonWs r1 with
        | ':' :: r3 =>
          match parseVal f (skipJsonWs r3) with
          | none => none
          | some (v, r5) =>
            match skipJsonWs r5 with
            | '}' :: r7 => some (Json.obj (dictOfPairs (acc ++ [(k, v)])), r7)
            | ',' :: r7 => parseMembers f (skipJsonWs r7) (acc ++ [(k, v)])
            | _ => none
        | _ => none
    | _ => none

end

/-- Fuel that is ample for any input of this length (each unit of fuel
spent by the parser consumes at least one character, with a bounded
constant overhead per nesting step). -/
def parserFuel (cs : List Char) : Nat :=
  2 * cs.length + 8

/-- CPython `json.loads` on a string: skip leading whitespace, decode one
value, skip trailing whitespace, and require the end of the input. -/
def json_loads (cs : List Char) : Option Json :=
  let c1 := skipJsonWs cs
  match parseVal (parserFuel c1) c1 with
  | none => none
  | some (v, rest) => if skipJsonWs rest = [] then some v else none

/-- CPython `json.JSONDecoder().raw_decode(text, start)`: decode one
value beginning exactly at index `start`; on success return the value
and the index just past the consumed text. -/
def raw_decode (text : List Char) (start : Nat) : Option (Json × Nat) :=
  let tail := text.drop start
  match parseVal (parserFuel tail) tail with
  | none => none
  | some (v, rest) => some (v, text.length - rest.length)

/-- Strategy 1 of `extract_records`: parse `text` as-is; a list is
returned unchanged, a single object becomes a one-element list, and any
other outcome (decode failure or a scalar) falls through as `none`. -/
def strategy1 (cs : List Char) : Option (List Json) :=
  match json_loads cs with
  | some (Json.arr l) => some l
  | some (Json.obj kv) => some [Json.obj kv]
  | _ => none

/-- Strategy 2 of `extract_records`: parse
`"[" + text.strip().rstrip(",") + "]"`; only a successful parse to a
list is used. -/
def strategy2 (cs : List Char) : Option (List Json) :=
  match json_loads ('[' :: (cleanPiece cs ++ [']'])) with
  | some (Json.arr l) => some l
  | _ => none

/-- One line of strategy 3: clean the line, skip it when blank, and keep
the parse result only when it is an object (decode failures and
non-objects are skipped). -/
def strat3Line (acc : List Json) (line : List Char) : List Json :=
  let l := cleanPiece line
  if l.isEmpty then acc
  else
    match json_loads l with
    | some (Json.obj kv) => acc ++ [Json.obj kv]
    | _ => acc

/-- Strategy 3 of `extract_records`: newline-delimited JSON. -/
def strategy3 (cs : List Char) : List Json :=
  (pySplitlines cs).foldl strat3Line []

/-- Offset of the first `{` in `cs` (the `re.search(r"\{", ...)` of
strategy 4). -/
def findFrom : List Char → Option Nat
  | [] => none
  | c :: rest => if c == '{' then some 0 else (findFrom rest).map (· + 1)

/-- Whether a decoded value is a Python `dict`. -/
def isObjJson : Json → Bool
  | Json.obj _ => true
  | _ => false

/-- One iteration of the strategy-4 scan loop from position `pos`:
`none` means the loop stops (no `{` remains at or after `pos`);
otherwise the optionally collected object and the next scan position
(just past the consumed text on success, one past the failed `{` on a
decode failure). -/
def scanStep (text : List Char) (pos : Nat) : Option (Option Json × Nat) :=
  match findFrom (text.drop pos) with
  | none => none
  | some off =>
    match raw_decode text (pos + off) with
    | some (v, e) => some ((if isObjJson v then some v else none), e)
    | none => some (none, (pos + off) + 1)

/-- The strategy-4 scan loop; the fuel is a termination device only,
ample because every step strictly advances the position. -/
def scanAux (text : List Char) (fuel : Nat) (pos : Nat) (acc : List Json) : List Json :=
  match fuel with
  | 0 => acc
  | f + 1 =>
    match scanStep text pos with
    | none => acc
    | some (r, pos2) => scanAux text f pos2 (acc ++ r.toList)

/-- Strategy 4 of `extract_records`: scan the raw text for balanced JSON
objects. -/
def strategy4 (text : List Char) : List Json :=
  scanAux text (text.length + 1) 0 []

/-- `extract_records(text)` of `chformat.py`: the four strategies tried
in order, following the source's control flow (note that strategies 1
and 2 return any successfully parsed list, even an empty one, while
strategy 3 falls through when it collected nothing). -/
def extract_records (cs : List Char) : List Json :=
  match strategy1 cs with
  | some l => l
  | none =>
  match strategy2 cs with
  | some l => l
  | none =>
  let records := strategy3 cs
  if records.isEmpty then strategy4 cs else records

/-- `json.loads` in the exception model: a decode failure raises
`json.JSONDecodeError`. -/
def json_loadsE (cs : List Char) : Except PyErr Json :=
  match json_loads cs with
  | some v => Except.ok v
  | none => Except.error PyErr.jsonDecodeError

/-- Strategy 1 in the exception model: the surrounding
`except json.JSONDecodeError: pass` turns exactly that error into
fall-through and re-raises anything else. -/
def strategy1E (cs : List Char) : Except PyErr (Option (List Json)) :=
  match json_loadsE cs with
  | Except.ok (Json.arr l) => Except.ok (some l)
  | Except.ok (Json.obj kv) => Except.ok (some [Json.obj kv])
  | Except.ok _ => Except.ok none
  | Except.error PyErr.jsonDecodeError => Except.ok none
  | Except.error e => Except.error e

/-- Strategy 2 in the exception model. -/
def strategy2E (cs : List Char) : Except PyErr (Option (List Json)) :=
  match json_loadsE ('[' :: (cleanPiece cs ++ [']'])) with
  | Except.ok (Json.arr l) => Except.ok (some l)
  | Except.ok _ => Except.ok none
  | Except.error PyErr.jsonDecodeError => Except.ok none
  | Except.error e => Except.error e

/-- One line of strategy 3 in the exception model: the per-line
`except json.JSONDecodeError: pass` skips the line. -/
def strat3LineE (acc : List Json) (line : List Char) : Except PyErr (List Json) :=
  let l := cleanPiece line
  if l.isEmpty then Except.ok acc
  else
    match json_loadsE l with
    | Except.ok (Json.obj kv) => Except.ok (acc ++ [Json.obj kv])
    | Except.ok _ => Except.ok acc
    | Except.error PyErr.jsonDecodeError => Except.ok acc
    | Except.error e => Except.error e

/-- Strategy 3 in the exception model. -/
def strategy3E (cs : List Char) : Except PyErr (List Json) :=
  (pySplitlines cs).foldlM strat3LineE []

/-- `raw_decode` in the exception model. -/
def raw_decodeE (text : List Char) (start : Nat) : Except PyErr (Json × Nat) :=
  match raw_decode text start with
  | some p => Except.ok p
  | none => Except.error PyErr.jsonDecodeError

/-- One strategy-4 iteration in the exception model: the loop's
`except json.JSONDecodeError` advances one character past the failed
`{`. -/
def scanStepE (text : List Char) (pos : Nat) : Except PyErr (Option (Option Json × Nat)) :=
  match findFrom (text.drop pos) with
  | none => Except.ok none
  | some off =>
    match raw_decodeE text (pos + off) with
    | Except.ok (v, e) => Except.ok (some ((if isObjJson v then some v else none), e))
    | Except.error PyErr.jsonDecodeError => Except.ok (some (none, (pos + off) + 1))
    | Except.error e => Except.error e

/-- The strategy-4 loop in the exception model. -/
def scanAuxE (text : List Char) (fuel : Nat) (pos : Nat) (acc : List Json) :
    Except PyErr (List Json) :=
  match fuel with
  | 0 => Except.ok acc
  | f + 1 =>
    match scanStepE text pos with
    | Except.ok none => Except.ok acc
    | Except.ok (some (r, pos2)) => scanAuxE text f pos2 (acc ++ r.toList)
    | Except.error e => Except.error e

/-- Strategy 4 in the exception model. -/
def strategy4E (text : List Char) : Except PyErr (List Json) :=
  scanAuxE text (text.length + 1) 0 []

/-- `extract_records` in the exception model: the faithful translation
of the function's control flow including every `try`/`except`. -/
def extract_recordsE (cs : List Char) : Except PyErr (List Json) :=
  match strategy1E cs with
  | Except.error e => Except.error e
  | Except.ok (some l) => Except.ok l
  | Except.ok none =>
  match strategy2E cs with
  | Except.error e => Except.error e
  | Except.ok (some l) => Except.ok l
  | Except.ok none =>
  match strategy3E cs with
  | Except.error e => Except.error e
  | Except.ok records =>
  if records.isEmpty then strategy4E cs else Except.ok records

/-- Python `str.expandtabs()` with the default tab size 8; the column
count resets after `\n` and `\r`. -/
def expandTabsGo (col : Nat) : List Char → List Char
  | [] => []
  | c :: rest =>
    if c = '\t' then
      List.replicate (8 - col % 8) ' ' ++ expandTabsGo (col + (8 - col % 8)) rest
    else if c = '\n' ∨ c = '\r' then c :: expandTabsGo 0 rest
    else c :: expandTabsGo (col + 1) rest

/-- Python `str.expandtabs()`. -/
def expandTabs (cs : List Char) : List Char :=
  expandTabsGo 0 cs

/-- `TextWrapper._munge_whitespace` with the default options: expand
tabs, then turn each of `\t\n\x0b\x0c\r` into a space. -/
def munge (cs : List Char) : List Char :=
  (expandTabs cs).map (fun c =>
    if c == '\t' || c == '\n' || c == '\x0b' || c == '\x0c' || c == '\r' then ' ' else c)

/-- Worker for `chunksOf`; `cur` holds the current chunk reversed. -/
def chunksGo (cur : List Char) : List Char → List (List Char)
  | [] => if cur.isEmpty then [] else [cur.reverse]
  | c :: rest =>
    match cur with
    | [] => chunksGo [c] rest
    | c0 :: _ =>
      if (c == ' ') == (c0 == ' ') then chunksGo (c :: cur) rest
      else cur.reverse :: chunksGo [c] rest

/-- `TextWrapper._split` on munged text: maximal runs of spaces and of
non-spaces become alternating chunks.  The default `break_on_hyphens`
additionally splits hyphenated words inside `_split`; that regex rule is
not modelled (every input a theorem below evaluates is hyphen-free),
while the hyphen preference inside `_handle_long_word` is. -/
def chunksOf (cs : List Char) : List (List Char) :=
  chunksGo [] cs

/-- `chunk.strip() == ''`: a chunk consisting of whitespace only. -/
def isWsChunk (c : List Char) : Bool :=
  c.all isPyWs

/-- Index of the last character satisfying `p`, like `str.rfind`. -/
def rfindIdx (p : Char → Bool) : List Char → Option Nat
  | [] => none
  | c :: rest =>
    match rfindIdx p rest with
    | some i => some (i + 1)
    | none => if p c then some 0 else none

/-- The index where `_handle_long_word` cuts the overlong chunk: the
space left on the line, or just after the last hyphen that fits. -/
def longWordEnd (width curLen : Nat) (chunk : List Char) : Nat :=
  let spaceLeft := if width < 1 then 1 else width - curLen
  if chunk.length > spaceLeft then
    match rfindIdx (· == '-') (chunk.take spaceLeft) with
    | some h => if 0 < h ∧ (chunk.take h).any (· != '-') then h + 1 else spaceLeft
    | none => spaceLeft
  else spaceLeft

/-- `TextWrapper._handle_long_word` with the default options
(`break_long_words` and `break_on_hyphens` true): slice the head chunk
to fill the space left on the current line, preferring a break just
after the last hyphen that fits. -/
def handleLongWord (width curLen : Nat) (chunk : List Char) : List Char × List Char :=
  (chunk.take (longWordEnd width curLen chunk), chunk.drop (longWordEnd width curLen chunk))

/-- The greedy inner loop of `_wrap_chunks`: pop chunks onto the current
line while they fit within `width`. -/
def packChunks (width cur : Nat) : List (List Char) → List (List Char) × List (List Char)
  | [] => ([], [])
  | c :: rest =>
    if cur + c.length ≤ width then
      let (t, r) := packChunks width (cur + c.length) rest
      (c :: t, r)
    else ([], c :: rest)

/-- Total length of a chunk list. -/
def sumLen (l : List (List Char)) : Nat :=
  (l.map List.length).sum

/-- The `drop_whitespace` rule at the start of a line: a leading
whitespace chunk is dropped once some line was already emitted. -/
def dropLeadWs (hasLines : Bool) (chunks : List (List Char)) : List (List Char) :=
  match chunks with
  | c :: rest => if hasLines && isWsChunk c then rest else chunks
  | [] => chunks

/-- The long-word break after greedy packing: when the next chunk is
longer than the whole width, `_handle_long_word` splices it. -/
def breakLong (width : Nat) (taken : List (List Char)) :
    List (List Char) → List (List Char) × List (List Char)
  | c :: r =>
    if c.length > width then
      let p := handleLongWord width (sumLen taken) c
      (taken ++ [p.1], p.2 :: r)
    else (taken, c :: r)
  | [] => (taken, [])

/-- The `drop_whitespace` rule at the end of a line: one trailing
whitespace piece of the current line is dropped. -/
def dropTrailWsPiece (taken : List (List Char)) : List (List Char) :=
  match taken.getLast? with
  | some last => if isWsChunk last then taken.dropLast else taken
  | none => taken

/-- One iteration of the outer `_wrap_chunks` loop (default options:
empty indents, `drop_whitespace` true, no `max_lines`): drop a leading
whitespace chunk when a line was already emitted, pack greedily, break a
long head word, drop a trailing whitespace piece from the line, and emit
the line if anything remains of it. -/
def wrapStep (width : Nat) (hasLines : Bool) (chunks0 : List (List Char)) :
    Option (List Char) × List (List Char) :=
  let chunks1 := dropLeadWs hasLines chunks0
  let pr := packChunks width 0 chunks1
  let pr2 := breakLong width pr.1 pr.2
  let taken3 := dropTrailWsPiece pr2.1
  match taken3 with
  | [] => (none, pr2.2)
  | _ => (some taken3.flatten, pr2.2)

/-- The outer `_wrap_chunks` loop; the fuel is a termination device
only, ample because every iteration strictly shrinks the chunk list for
any positive width. -/
def wrapChunksFuel (width : Nat) : Nat → Bool → List (List Char) → List (List Char)
  | 0, _, _ => []
  | _ + 1, _, [] => []
  | f + 1, hasLines, chunks =>
    match wrapStep width hasLines chunks with
    | (none, rest) => wrapChunksFuel width f hasLines rest
    | (some line, rest) => line :: wrapChunksFuel width f true rest

/-- `textwrap.wrap(text, width)` with default options (modulo the
`_split` hyphen rule noted at `chunksOf`).  CPython raises ValueError
for `width <= 0`; `textwrap_wrapE` models that, and this function's
value is only meaningful for `width ≥ 1`. -/
def textwrap_wrap (width : Nat) (text : List Char) : List (List Char) :=
  let chunks := chunksOf (munge text)
  wrapChunksFuel width (sumLen chunks + chunks.length + 1) false chunks

/-- `textwrap.wrap` including the ValueError CPython raises on a
non-positive width. -/
def textwrap_wrapE (width : Nat) (text : List Char) : Except PyErr (List (List Char)) :=
  if width = 0 then Except.error PyErr.valueError
  else Except.ok (textwrap_wrap width text)

/-- One decimal digit character. -/
def digitChar (n : Nat) : Char :=
  Char.ofNat (48 + n % 10)

/-- Decimal digits of a natural number (the fuel is a termination
device; `n + 1` is always ample). -/
def natDigitsGo : Nat → Nat → List Char
  | 0, _ => []
  | f + 1, n => if n < 10 then [digitChar n] else natDigitsGo f (n / 10) ++ [digitChar n]

/-- Python `str(n)` for a natural number. -/
def natDigits (n : Nat) : List Char :=
  natDigitsGo (n + 1) n

/-- Python `str(n)` for an integer. -/
def intDigits (i : Int) : List Char :=
  if i < 0 then '-' :: natDigits i.natAbs else natDigits i.natAbs

/-- Left-pad a digit string with zeros to length `k`. -/
def padZeros (k : Nat) (ds : List Char) : List Char :=
  List.replicate (k - ds.length) '0' ++ ds

/-- Python `str(x)` for the decimal float `m * 10 ^ e`: rendered exactly
from the stored decimal (CPython renders the shortest repr of the
nearest IEEE double instead; no theorem depends on this). -/
def fltRender (m e : Int) : List Char :=
  if 0 ≤ e then intDigits (m * 10 ^ e.toNat) ++ ['.', '0']
  else
    let k := (-e).toNat
    let a := m.natAbs
    (if m < 0 then ['-'] else []) ++
      natDigits (a / 10 ^ k) ++ '.' :: padZeros k (natDigits (a % 10 ^ k))

/-- A lowercase hex digit. -/
def hexDigitChar (n : Nat) : Char :=
  if n < 10 then Char.ofNat (48 + n) else Char.ofNat (87 + (n - 10))

/-- One character of a Python string repr under quote character `q`. -/
def pyReprCharEsc (q c : Char) : List Char :=
  if c == '\\' then ['\\', '\\']
  else if c == q then ['\\', q]
  else if c == '\n' then ['\\', 'n']
  else if c == '\r' then ['\\', 'r']
  else if c == '\t' then ['\\', 't']
  else if c.toNat < 0x20 || c.toNat == 0x7f then
    ['\\', 'x', hexDigitChar (c.toNat / 16), hexDigitChar (c.toNat % 16)]
  else [c]

/-- Python `repr` of a `str`: single quotes unless the string contains a
single quote and no double quote (non-printable characters above ASCII
are kept as-is, a harmless simplification). -/
def pyReprStr (s : List Char) : List Char :=
  let q := if s.contains '\'' && !(s.contains '"') then '"' else '\''
  q :: ((s.map (pyReprCharEsc q)).flatten ++ [q])

/-- Join with `", "`, as in Python container reprs. -/
def joinCommaSp (xs : List (List Char)) : List Char :=
  match xs with
  | [] => []
  | x :: rest => x ++ (rest.map (fun y => ',' :: ' ' :: y)).flatten

mutual

/-- Python `repr(x)` for a decoded JSON value. -/
def pyRepr : Json → List Char
  | Json.null => "None".data
  | Json.bool b => if b then "True".data else "False".data
  | Json.num n => intDigits n
  | Json.flt m e => fltRender m e
  | Json.nan => "nan".data
  | Json.inf neg => if neg then "-inf".data else "inf".data
  | Json.str s => pyReprStr s
  | Json.arr l => '[' :: (joinCommaSp (pyReprList l) ++ [']'])
  | Json.obj kvs => '{' :: (joinCommaSp (pyReprPairs kvs) ++ ['}'])

/-- `repr` of each list element. -/
def pyReprList : List Json → List (List Char)
  | [] => []
  | v :: rest => pyRepr v :: pyReprList rest

/-- `repr` of each dict item as `'key': value`. -/
def pyReprPairs : List (List Char × Json) → List (List Char)
  | [] => []
  | (k, v) :: rest => (pyReprStr k ++ ':' :: ' ' :: pyRepr v) :: pyReprPairs rest

end

/-- Python `str(x)` for a decoded JSON value: the string itself for a
`str`, its repr for every other type. -/
def pyStr (v : Json) : List Char :=
  match v with
  | Json.str s => s
  | _ => pyRepr v

/-- Python `int(s)` for a string: optional surrounding whitespace, an
optional sign, then decimal digits (digit-group underscores are not
modelled). -/
def intStrParse (s : List Char) : Option Int :=
  let t := pyStrip s
  match t with
  | '-' :: ds =>
    if !ds.isEmpty && ds.all Char.isDigit then some (-(Int.ofNat (digitsToNat ds))) else none
  | '+' :: ds =>
    if !ds.isEmpty && ds.all Char.isDigit then some (Int.ofNat (digitsToNat ds)) else none
  | ds =>
    if !ds.isEmpty && ds.all Char.isDigit then some (Int.ofNat (digitsToNat ds)) else none

/-- Truncation toward zero of the decimal float `m * 10 ^ e`. -/
def truncFlt (m e : Int) : Int :=
  if 0 ≤ e then m * 10 ^ e.toNat else Int.tdiv m (Int.ofNat (10 ^ (-e).toNat))

/-- Python `int(x)` on values as decoded by `json.loads`: ints pass
through, bools become 0/1, floats truncate toward zero (modelled exactly
on the stored decimal), numeric strings parse, anything else raises
(ValueError for non-numeric strings and NaN, TypeError for `None`,
lists, dicts; CPython raises OverflowError for infinities, folded into
`valueError` here). -/
def pyIntE : Json → Except PyErr Int
  | Json.num n => Except.ok n
  | Json.bool b => Except.ok (if b then 1 else 0)
  | Json.flt m e => Except.ok (truncFlt m e)
  | Json.nan => Except.error PyErr.valueError
  | Json.inf _ => Except.error PyErr.valueError
  | Json.str s =>
    match intStrParse s with
    | some n => Except.ok n
    | none => Except.error PyErr.valueError
  | Json.null => Except.error PyErr.typeError
  | Json.arr _ => Except.error PyErr.typeError
  | Json.obj _ => Except.error PyErr.typeError

/-- `f"{n:03d}"` for `n` in `[0, 999]`. -/
def pad3 (n : Int) : List Char :=
  let k := n.toNat
  [digitChar (k / 100), digitChar (k / 10), digitChar k]

/-- `parse_timestamp(ts_ms)` of `chformat.py` after its `int(ts_ms)`
conversion (which the callers below apply via `pyIntE`), with the
local-time date rendering abstracted: `dtRender ms` stands for
`datetime.fromtimestamp(ms / 1000.0).strftime("%Y-%m-%d %H:%M:%S")`,
which depends on the process's timezone; the `.mmm` suffix is the
concrete `f".{ts_ms % 1000:03d}"` (Python `%` is floor-mod, so the value
is always in `[0, 999]`). -/
def parse_timestamp (dtRender : Int → List Char) (tsMs : Int) : List Char :=
  dtRender tsMs ++ '.' :: pad3 (tsMs.emod 1000)

/-- `trim_words(text, max_words)` of `chformat.py`. -/
def trim_words (text : List Char) (maxWords : Nat) : List Char :=
  let words := pySplit text
  if words.length ≤ maxWords then text
  else joinSpaces (words.take maxWords) ++ "...".data

/-- Python `record.get(key, default)` on a dict held as an association
list. -/
def dict_get (record : List (List Char × Json)) (key : List Char) (dflt : Json) : Json :=
  match record.find? (fun p => decide (p.1 = key)) with
  | some p => p.2
  | none => dflt

/-- The display text `format_record` works with: `str` of the record's
`display` value (default `""`), then the optional word trim. -/
def displayText (record : List (List Char × Json)) (trim : Option Nat) : List Char :=
  let display0 := pyStr (dict_get record "display".data (Json.str []))
  match trim with
  | some t => trim_words display0 t
  | none => display0

/-- `"\n".join(lines)`. -/
def joinNL (lines : List (List Char)) : List Char :=
  match lines with
  | [] => []
  | l :: rest => l ++ (rest.map (fun x => '\n' :: x)).flatten

/-- `format_record(record, term_width, trim, show_timestamp)` of
`chformat.py` in the exception model; `dtRender` abstracts the
local-time date rendering (see `parse_timestamp`). -/
def format_recordE (dtRender : Int → List Char) (record : List (List Char × Json))
    (termWidth : Nat) (trim : Option Nat) (showTimestamp : Bool) :
    Except PyErr (List Char) :=
  let display := displayText record trim
  if !showTimestamp then
    match (if (pyStrip display).isEmpty then Except.ok [([] : List Char)]
      else textwrap_wrapE termWidth display) with
    | Except.error e => Except.error e
    | Except.ok lines => Except.ok (joinNL lines)
  else
    match pyIntE (dict_get record "timestamp".data (Json.num 0)) with
    | Except.error e => Except.error e
    | Except.ok ts =>
      let tsStr := parse_timestamp dtRender ts
      let sep := [' ', ' ']
      let ind := List.replicate (tsStr.length + sep.length) ' '
      let textWidth := max (termWidth - ind.length) 20
      let lines := if (pyStrip display).isEmpty then [[]] else textwrap_wrap textWidth display
      match lines with
      | [] => Except.error PyErr.indexError
      | l0 :: rest =>
        Except.ok (rest.foldl (fun acc l => acc ++ ('\n' :: (ind ++ l))) (tsStr ++ sep ++ l0))

/-- The value `format_record` returns on the show-timestamp path once
the timestamp integer `ts` is known (the empty-`lines` case cannot occur
for a positive wrap width and is mapped to the empty string). -/
def formatted (dtRender : Int → List Char) (ts : Int) (record : List (List Char × Json))
    (termWidth : Nat) (trim : Option Nat) : List Char :=
  let display := displayText record trim
  let tsStr := parse_timestamp dtRender ts
  let ind := List.replicate (tsStr.length + 2) ' '
  let lines := if (pyStrip display).isEmpty then [[]]
    else textwrap_wrap (max (termWidth - (tsStr.length + 2)) 20) display
  match lines with
  | [] => []
  | l0 :: rest =>
    tsStr ++ ' ' :: ' ' :: (l0 ++ (rest.map (fun l => '\n' :: (ind ++ l))).flatten)

/-- Claim C2's reading of strategy 1 as a value-returning function:
decode failures and scalars yield the empty sequence. -/
def specStrat1 (cs : List Char) : List Json :=
  match json_loads cs with
  | some (Json.arr l) => l
  | some (Json.obj kv) => [Json.obj kv]
  | _ => []

/-- Claim C2's reading of the driver, following the claim's words: the
result of the first strategy whose result is non-empty, every empty
result falling through. -/
def extractFirstNonempty (cs : List Char) : List Json :=
  let r1 := specStrat1 cs
  if !r1.isEmpty then r1 else
  let r2 := (strategy2 cs).getD []
  if !r2.isEmpty then r2 else
  let r3 := strategy3 cs
  if !r3.isEmpty then r3 else strategy4 cs

/-- Claim C4's reading of the comma cleaning: exactly one trailing comma
stripped. -/
def rstripOneComma (cs : List Char) : List Char :=
  match cs.reverse with
  | ',' :: r => r.reverse
  | _ => cs

/-- Claim C4's reading of strategy 2, with `rstripOneComma` in place of
`str.rstrip(",")`. -/
def strategy2Single (cs : List Char) : Option (List Json) :=
  match json_loads ('[' :: (rstripOneComma (pyStrip cs) ++ [']'])) with
  | some (Json.arr l) => some l
  | _ => none

/-- A complete non-string scalar literal, with its decoded value: the
whole input is one keyword constant or one `NUMBER_RE` match. -/
def scalarLit (cs : List Char) : Option Json :=
  if cs = "null".data then some Json.null
  else if cs = "true".data then some (Json.bool true)
  else if cs = "false".data then some (Json.bool false)
  else if cs = "NaN".data then some Json.nan
  else if cs = "Infinity".data then some (Json.inf false)
  else if cs = "-Infinity".data then some (Json.inf true)
  else
    match numTok cs with
    | some (v, []) => some v
    | _ => none

theorem strategy1E_ok (cs : List Char) : strategy1E cs = Except.ok (strategy1 cs) := by
  unfold strategy1E strategy1 json_loadsE
  cases h : json_loads cs with
  | none => rfl
  | some v => cases v <;> rfl

theorem strategy2E_ok (cs : List Char) : strategy2E cs = Except.ok (strategy2 cs) := by
  unfold strategy2E strategy2 json_loadsE
  cases h : json_loads ('[' :: (cleanPiece cs ++ [']'])) with
  | none => rfl
  | some v => cases v <;> rfl

theorem strat3LineE_ok (acc : List Json) (l : List Char) :
    strat3LineE acc l = Except.ok (strat3Line acc l) := by
  unfold strat3LineE strat3Line json_loadsE
  by_cases h0 : (cleanPiece l).isEmpty
  · simp [h0]
  · simp only [h0, if_false, Bool.false_eq_true]
    cases h : json_loads (cleanPiece l) with
    | none => rfl
    | some v => cases v <;> rfl

theorem strategy3E_ok (cs : List Char) : strategy3E cs = Except.ok (strategy3 cs) := by
  unfold strategy3E strategy3
  suffices h : ∀ (lines : List (List Char)) acc,
      List.foldlM strat3LineE acc lines = Except.ok (List.foldl strat3Line acc lines) from
    h _ []
  intro lines
  induction lines with
  | nil => intro acc; rfl
  | cons x xs ih =>
    intro acc
    rw [List.foldlM_cons, strat3LineE_ok]
    exact ih (strat3Line acc x)

theorem scanStepE_ok (text : List Char) (pos : Nat) :
    scanStepE text pos = Except.ok (scanStep text pos) := by
  unfold scanStepE scanStep raw_decodeE
  cases findFrom (text.drop pos) with
  | none => rfl
  | some off =>
    cases h : raw_decode text (pos + off) with
    | none => simp [h]
    | some p => cases p with | mk v e => simp [h]

theorem scanAuxE_ok (text : List Char) : ∀ fuel pos acc,
    scanAuxE text fuel pos acc = Except.ok (scanAux text fuel pos acc) := by
  intro fuel
  induction fuel with
  | zero => intro pos acc; rfl
  | succ f ih =>
    intro pos acc
    unfold scanAuxE scanAux
    rw [scanStepE_ok]
    cases scanStep text pos with
    | none => rfl
    | some pr =>
      cases pr with
      | mk r pos2 => simpa using ih pos2 (acc ++ r.toList)

theorem strategy4E_ok (text : List Char) : strategy4E text = Except.ok (strategy4 text) :=
  scanAuxE_ok text _ 0 []

/-- Claim C1: for every input string the extractor never raises — in the
exception model, where every `json.loads` failure raises
`JSONDecodeError` and each strategy's `try`/`except` catches exactly
that, `extract_records` always returns `ok` with the value of the pure
extractor. -/
theorem extract_never_raises (cs : List Char) :
    extract_recordsE cs = Except.ok (extract_records cs) := by
  unfold extract_recordsE extract_records
  rw [strategy1E_ok]
  cases strategy1 cs with
  | some l => rfl
  | none =>
    rw [strategy2E_ok]
    cases strategy2 cs with
    | some l => rfl
    | none =>
      rw [strategy3E_ok]
      by_cases h : (strategy3 cs).isEmpty
      · simpa [h] using strategy4E_ok cs
      · simp [h]

/-- Claim C2 counterexample: on input `"[]"` the direct parse succeeds
with the empty list and `extract_records` returns it at once, whereas
the claimed first-non-empty driver would fall through to strategy 2,
whose bracket wrap parses `"[[]]"` to a non-empty sequence. -/
theorem extract_not_first_nonempty :
    extract_records ['[', ']'] = [] ∧
    extractFirstNonempty ['[', ']'] = [Json.arr []] ∧
    extract_records ['[', ']'] ≠ extractFirstNonempty ['[', ']'] := by
  refine ⟨rfl, rfl, fun h => ?_⟩
  exact absurd (congrArg List.length h) (by decide)

/-- Claim C2 as amended: the four strategies are applied in priority
order, but strategies 1 and 2 return any successfully parsed list — even
an empty one — without falling through; only strategy 3 requires a
non-empty collection, and strategy 4's possibly-empty result is final. -/
theorem extract_priority_order (cs : List Char) :
    (∀ l, strategy1 cs = some l → extract_records cs = l) ∧
    (strategy1 cs = none → ∀ l, strategy2 cs = some l → extract_records cs = l) ∧
    (strategy1 cs = none → strategy2 cs = none → strategy3 cs ≠ [] →
      extract_records cs = strategy3 cs) ∧
    (strategy1 cs = none → strategy2 cs = none → strategy3 cs = [] →
      extract_records cs = strategy4 cs) := by
  refine ⟨?_, ?_, ?_, ?_⟩
  · intro l h; unfold extract_records; rw [h]
  · intro h1 l h2; unfold extract_records; rw [h1, h2]
  · intro h1 h2 h3
    unfold extract_records
    rw [h1, h2]
    simp [h3]
  · intro h1 h2 h3
    unfold extract_records
    rw [h1, h2]
    simp [h3]

/-- Claim C2 amended, witness: on `"[]"` strategy 1 yields the empty
list and `extract_records` returns it. -/
theorem extract_priority_order_witness : extract_records ['[', ']'] = [] :=
  (extract_priority_order ['[', ']']).1 [] rfl

/-- Claim C3: a string that parses as a JSON array extracts to exactly
its elements in order, and a string that parses as a single JSON object
extracts to the one-element sequence holding it. -/
theorem extract_direct_parse (cs : List Char) :
    (∀ l, json_loads cs = some (Json.arr l) → extract_records cs = l) ∧
    (∀ kv, json_loads cs = some (Json.obj kv) → extract_records cs = [Json.obj kv]) := by
  constructor
  · intro l h
    unfold extract_records strategy1
    rw [h]
  · intro kv h
    unfold extract_records strategy1
    rw [h]

/-- Claim C3 witness: `"[1, 2]"` extracts to its two elements and
`{"a": 1}` extracts to the one-element sequence. -/
theorem extract_direct_parse_witness :
    extract_records "[1, 2]".data = [Json.num 1, Json.num 2] ∧
    extract_records ['{', '"', 'a', '"', ':', '1', '}'] = [Json.obj [(['a'], Json.num 1)]] :=
  ⟨(extract_direct_parse _).1 _ rfl, (extract_direct_parse _).2 _ rfl⟩

/-- Claim C4 counterexample: on `"1,,"` the code's strategy 2 strips
both trailing commas (Python `str.rstrip(",")` strips every one) and
succeeds, while the claimed single-comma variant fails to parse `"[1,]"`
— and `extract_records` returns what the all-comma strip produced. -/
theorem single_comma_strip_refuted :
    strategy2 ['1', ',', ','] = some [Json.num 1] ∧
    strategy2Single ['1', ',', ','] = none ∧
    extract_records ['1', ',', ','] = [Json.num 1] :=
  ⟨rfl, rfl, rfl⟩

/-- Claim C5 counterexample: a record whose `timestamp` is the
non-numeric string `"abc"` makes `format_record` raise ValueError (from
`int("abc")` inside `parse_timestamp`) instead of substituting the
default. -/
theorem nonnumeric_timestamp_raises :
    format_recordE (fun _ => []) [("timestamp".data, Json.str "abc".data)] 80 none true =
      Except.error PyErr.valueError := rfl

/-- Claim C8 counterexample: with width 20 a single 25-character word is
broken at the width (CPython `textwrap` has `break_long_words=True`), it
does not occupy its own overflow line unbroken. -/
theorem long_word_broken :
    textwrap_wrap 20 (List.replicate 25 'a') =
      [List.replicate 20 'a', List.replicate 5 'a'] ∧
    ¬ List.replicate 25 'a' ∈ textwrap_wrap 20 (List.replicate 25 'a') :=
  ⟨rfl, by decide⟩

/-- Claim C6: trimming happens only when the whitespace-split word count
strictly exceeds the limit — equality returns the text unchanged — and a
trimmed text is the first `maxWords` words joined by single spaces with
the literal `"..."` appended. -/
theorem trim_words_boundary (text : List Char) (maxWords : Nat) :
    ((pySplit text).length ≤ maxWords → trim_words text maxWords = text) ∧
    (maxWords < (pySplit text).length →
      trim_words text maxWords = joinSpaces ((pySplit text).take maxWords) ++ "...".data) := by
  constructor
  · intro h
    unfold trim_words
    rw [if_pos h]
  · intro h
    unfold trim_words
    rw [if_neg (by omega)]

/-- Claim C6 witness: five words trimmed to three, and exactly three
words left untouched. -/
theorem trim_words_boundary_witness :
    trim_words "one two three four five".data 3 = "one two three...".data ∧
    trim_words "one two three".data 3 = "one two three".data :=
  ⟨((trim_words_boundary _ 3).2 (by decide)).trans rfl, (trim_words_boundary _ 3).1 (by decide)⟩

theorem sumLen_nil : sumLen [] = 0 := rfl

theorem sumLen_cons (c : List Char) (l : List (List Char)) :
    sumLen (c :: l) = c.length + sumLen l := by
  simp [sumLen]

theorem sumLen_append (a b : List (List Char)) :
    sumLen (a ++ b) = sumLen a + sumLen b := by
  simp [sumLen]

theorem flatten_length_sumLen (l : List (List Char)) :
    l.flatten.length = sumLen l := by
  simp [sumLen, List.length_flatten]

theorem packChunks_parts (width : Nat) :
    ∀ (chunks : List (List Char)) (cur : Nat),
      (packChunks width cur chunks).1 ++ (packChunks width cur chunks).2 = chunks := by
  intro chunks
  induction chunks with
  | nil => intro cur; rfl
  | cons c rest ih =>
    intro cur
    unfold packChunks
    by_cases h : cur + c.length ≤ width
    · simp only [h, if_true]
      simpa using ih (cur + c.length)
    · simp [h]

theorem packChunks_bound (width : Nat) :
    ∀ (chunks : List (List Char)) (cur : Nat),
      (packChunks width cur chunks).1 ≠ [] →
        cur + sumLen (packChunks width cur chunks).1 ≤ width := by
  intro chunks
  induction chunks with
  | nil => intro cur h; simp [packChunks] at h
  | cons c rest ih =>
    intro cur h
    unfold packChunks at h ⊢
    by_cases hc : cur + c.length ≤ width
    · simp only [hc, if_true] at h ⊢
      rcases htail : (packChunks width (cur + c.length) rest).1 with _ | ⟨x, xs⟩
      · simp only [sumLen_cons, sumLen_nil]
        omega
      · have hb := ih (cur + c.length) (by rw [htail]; simp)
        rw [htail] at hb
        simp only [sumLen_cons] at hb ⊢
        omega
    · simp [hc] at h

theorem packChunks_empty_head (width : Nat) (c : List Char) (r : List (List Char)) (cur : Nat)
    (h : (packChunks width cur (c :: r)).1 = []) :
    ¬ (cur + c.length ≤ width) ∧ (packChunks width cur (c :: r)).2 = c :: r := by
  unfold packChunks at h ⊢
  by_cases hc : cur + c.length ≤ width
  · simp [hc] at h
  · simp [hc]

theorem rfindIdx_lt_length (p : Char → Bool) :
    ∀ (cs : List Char) (i : Nat), rfindIdx p cs = some i → i < cs.length := by
  intro cs
  induction cs with
  | nil => intro i h; simp [rfindIdx] at h
  | cons c rest ih =>
    intro i h
    unfold rfindIdx at h
    cases hr : rfindIdx p rest with
    | some j =>
      rw [hr] at h
      cases h
      have := ih j hr
      simp
      omega
    | none =>
      rw [hr] at h
      by_cases hp : p c
      · simp [hp] at h
        simp [← h]
      · simp [hp] at h

theorem longWordEnd_le (width curLen : Nat) (chunk : List Char) (hw : 1 ≤ width) :
    longWordEnd width curLen chunk ≤ width - curLen := by
  simp only [longWordEnd]
  rw [if_neg (by omega : ¬ width < 1)]
  split
  · cases hrf : rfindIdx (· == '-') (List.take (width - curLen) chunk) with
    | none => exact le_rfl
    | some h =>
      dsimp only
      split
      · have h1 := rfindIdx_lt_length _ _ _ hrf
        have h2 : (List.take (width - curLen) chunk).length ≤ width - curLen :=
          List.length_take_le _ _
        omega
      · exact le_rfl
  · exact le_rfl

theorem longWordEnd_pos (width : Nat) (chunk : List Char) (hw : 1 ≤ width) :
    1 ≤ longWordEnd width 0 chunk := by
  simp only [longWordEnd]
  rw [if_neg (by omega : ¬ width < 1)]
  split
  · cases hrf : rfindIdx (· == '-') (List.take (width - 0) chunk) with
    | none => exact (by omega : 1 ≤ width - 0)
    | some h =>
      dsimp only
      split
      · omega
      · omega
  · exact (by omega : 1 ≤ width - 0)

theorem handleLong_parts (width curLen : Nat) (chunk : List Char) :
    (handleLongWord width curLen chunk).1 ++ (handleLongWord width curLen chunk).2 = chunk := by
  unfold handleLongWord
  exact List.take_append_drop _ _

theorem handleLong_slice_le (width curLen : Nat) (chunk : List Char) (hw : 1 ≤ width) :
    (handleLongWord width curLen chunk).1.length ≤ width - curLen := by
  unfold handleLongWord
  dsimp only
  have h1 := longWordEnd_le width curLen chunk hw
  have h2 : (chunk.take (longWordEnd width curLen chunk)).length ≤
      longWordEnd width curLen chunk := List.length_take_le _ _
  omega

theorem handleLong_slice_pos (width : Nat) (chunk : List Char)
    (hw : 1 ≤ width) (hlen : width < chunk.length) :
    1 ≤ (handleLongWord width 0 chunk).1.length := by
  unfold handleLongWord
  dsimp only
  have h1 := longWordEnd_pos width chunk hw
  rw [List.length_take]
  exact le_min h1 (by omega)

theorem handleLong_rem_ne (width curLen : Nat) (chunk : List Char)
    (hw : 1 ≤ width) (hlen : width < chunk.length) :
    (handleLongWord width curLen chunk).2 ≠ [] := by
  unfold handleLongWord
  dsimp only
  intro h
  rw [List.drop_eq_nil_iff] at h
  have := longWordEnd_le width curLen chunk hw
  omega

theorem sumLen_pos (l : List (List Char)) (hne : l ≠ []) (hall : ∀ c ∈ l, c ≠ []) :
    1 ≤ sumLen l := by
  cases l with
  | nil => exact absurd rfl hne
  | cons a as =>
    have h1 : a ≠ [] := hall a (by simp)
    have h2 : 0 < a.length := List.length_pos.mpr h1
    rw [sumLen_cons]
    omega

theorem sumLen_dropLast : ∀ t2 : List (List Char), sumLen t2.dropLast ≤ sumLen t2 := by
  intro t2
  induction t2 with
  | nil => simp
  | cons a as ih =>
    cases as with
    | nil => simp [sumLen_cons, sumLen_nil]
    | cons b bs =>
      have : (a :: b :: bs).dropLast = a :: (b :: bs).dropLast := rfl
      rw [this, sumLen_cons, sumLen_cons]
      omega

theorem isWsChunk_append_false (a b : List Char) (h : isWsChunk (a ++ b) = false)
    (ha : isWsChunk a = true) : isWsChunk b = false := by
  unfold isWsChunk at *
  rw [List.all_append, ha, Bool.true_and] at h
  exact h

theorem breakLong_cases (width : Nat) (taken : List (List Char)) (r1 : List (List Char)) :
    (r1 = [] ∧ breakLong width taken r1 = (taken, [])) ∨
    (∃ c r, r1 = c :: r ∧ ¬ c.length > width ∧ breakLong width taken r1 = (taken, c :: r)) ∨
    (∃ c r, r1 = c :: r ∧ c.length > width ∧
      breakLong width taken r1 =
        (taken ++ [(handleLongWord width (sumLen taken) c).1],
         (handleLongWord width (sumLen taken) c).2 :: r)) := by
  cases r1 with
  | nil => exact Or.inl ⟨rfl, rfl⟩
  | cons c r =>
    by_cases hc : c.length > width
    · refine Or.inr (Or.inr ⟨c, r, rfl, hc, ?_⟩)
      unfold breakLong
      simp [hc]
    · refine Or.inr (Or.inl ⟨c, r, rfl, hc, ?_⟩)
      unfold breakLong
      simp [hc]

theorem dropTrail_sub (t2 : List (List Char)) :
    dropTrailWsPiece t2 = t2 ∨ dropTrailWsPiece t2 = t2.dropLast := by
  unfold dropTrailWsPiece
  cases h : t2.getLast? with
  | none => exact Or.inl rfl
  | some last =>
    by_cases hws : isWsChunk last
    · simp [hws]
    · simp [hws]

theorem dropTrail_eq_nil (t2 : List (List Char)) (h : dropTrailWsPiece t2 = []) :
    t2 = [] ∨ ∃ x, t2 = [x] ∧ isWsChunk x = true := by
  unfold dropTrailWsPiece at h
  cases hl : t2.getLast? with
  | none =>
    left
    simpa using List.getLast?_eq_none_iff.mp hl
  | some last =>
    rw [hl] at h
    by_cases hws : isWsChunk last
    · have h2 : t2.dropLast = [] := by
        have h3 : (if isWsChunk last = true then t2.dropLast else t2) = [] := h
        rwa [if_pos hws] at h3
      right
      cases t2 with
      | nil => simp at hl
      | cons a as =>
        cases as with
        | nil =>
          refine ⟨a, rfl, ?_⟩
          have ha : a = last := by simpa using hl
          rw [ha]
          exact hws
        | cons b bs =>
          exact absurd h2 (by simp [List.dropLast])
    · have h2 : t2 = [] := by
        have h3 : (if isWsChunk last = true then t2.dropLast else t2) = [] := h
        rwa [if_neg hws] at h3
      exact Or.inl h2

theorem dropLeadWs_cases (hasLines : Bool) (chunks : List (List Char)) :
    dropLeadWs hasLines chunks = chunks ∨
    ∃ c0 rest0, chunks = c0 :: rest0 ∧ isWsChunk c0 = true ∧
      dropLeadWs hasLines chunks = rest0 := by
  cases chunks with
  | nil => exact Or.inl rfl
  | cons c0 rest0 =>
    unfold dropLeadWs
    by_cases h : hasLines && isWsChunk c0
    · refine Or.inr ⟨c0, rest0, rfl, ?_, ?_⟩
      · exact (Bool.and_eq_true _ _ |>.mp h).2
      · simp [h]
    · simp [h]

theorem wrapCore_spec (width : Nat) (hw : 1 ≤ width) (c1 : List (List Char))
    (hall : ∀ c ∈ c1, c ≠ [])
    (t r1 : List (List Char)) (hpk : packChunks width 0 c1 = (t, r1))
    (t2 r2 : List (List Char)) (hbk : breakLong width t r1 = (t2, r2)) :
    (dropTrailWsPiece t2 ≠ [] → (dropTrailWsPiece t2).flatten.length ≤ width) ∧
    (∀ c ∈ r2, c ≠ []) ∧
    (c1 ≠ [] → sumLen r2 < sumLen c1) ∧
    (dropTrailWsPiece t2 = [] →
      (∃ c ∈ c1, isWsChunk c = false) → ∃ c ∈ r2, isWsChunk c = false) := by
  have hparts : t ++ r1 = c1 := by
    have h := packChunks_parts width c1 0
    rw [hpk] at h
    exact h
  have hmem_t : ∀ x ∈ t, x ∈ c1 := by
    intro x hx
    rw [← hparts]
    exact List.mem_append_left _ hx
  have hmem_r1 : ∀ x ∈ r1, x ∈ c1 := by
    intro x hx
    rw [← hparts]
    exact List.mem_append_right _ hx
  have hbound : sumLen t ≤ width := by
    rcases eq_or_ne t [] with h | h
    · rw [h, sumLen_nil]
      omega
    · have hb := packChunks_bound width c1 0 (by rw [hpk]; exact h)
      rw [hpk] at hb
      simpa using hb
  -- a helper shared by the non-breaking cases: the emitted line fits
  have hline_of_t2_eq : ∀ u, sumLen u ≤ width →
      (dropTrailWsPiece u ≠ [] → (dropTrailWsPiece u).flatten.length ≤ width) := by
    intro u hu _
    rw [flatten_length_sumLen]
    rcases dropTrail_sub u with h | h
    · rw [h]; exact hu
    · rw [h]; exact le_trans (sumLen_dropLast u) hu
  rcases breakLong_cases width t r1 with ⟨hr1, hbe⟩ | ⟨c, r, hr1, hclen, hbe⟩ |
    ⟨c, r, hr1, hclen, hbe⟩
  · -- r1 = []
    rw [hbe] at hbk
    have ht2 : t2 = t := (congrArg Prod.fst hbk.symm : _)
    have hr2 : r2 = [] := (congrArg Prod.snd hbk.symm : _)
    rw [ht2, hr2]
    refine ⟨hline_of_t2_eq t hbound, by simp, ?_, ?_⟩
    · intro hne
      rw [sumLen_nil]
      exact sumLen_pos c1 hne hall
    · intro hdt hex
      obtain ⟨w, hwmem, hwns⟩ := hex
      rcases dropTrail_eq_nil t hdt with ht | ⟨x, htx, hxws⟩
      · rw [← hparts, ht, hr1] at hwmem
        simp at hwmem
      · rw [← hparts, htx, hr1] at hwmem
        simp at hwmem
        rw [hwmem] at hwns
        rw [hxws] at hwns
        simp at hwns
  · -- head does not exceed the width: no break
    rw [hbe] at hbk
    have ht2 : t2 = t := (congrArg Prod.fst hbk.symm : _)
    have hr2 : r2 = c :: r := (congrArg Prod.snd hbk.symm : _)
    have htne : t ≠ [] := by
      intro ht
      have hc1eq : c1 = c :: r := by rw [← hparts, ht, hr1]; rfl
      have hpe : (packChunks width 0 (c :: r)).1 = [] := by
        rw [← hc1eq, hpk, ht]
      have hh := (packChunks_empty_head width c r 0 hpe).1
      omega
    rw [ht2, hr2]
    refine ⟨hline_of_t2_eq t hbound, ?_, ?_, ?_⟩
    · intro x hx
      exact hall x (hmem_r1 x (hr1 ▸ hx))
    · intro _
      have h1 : 1 ≤ sumLen t := sumLen_pos t htne (fun x hx => hall x (hmem_t x hx))
      have h2 : sumLen c1 = sumLen t + sumLen (c :: r) := by
        rw [← hparts, hr1, sumLen_append]
      omega
    · intro hdt hex
      obtain ⟨w, hwmem, hwns⟩ := hex
      rcases dropTrail_eq_nil t hdt with ht | ⟨x, htx, hxws⟩
      · exact absurd ht htne
      · rw [← hparts, htx, hr1] at hwmem
        simp at hwmem
        rcases hwmem with hwx | hwm
        · rw [hwx] at hwns
          rw [hxws] at hwns
          simp at hwns
        · exact ⟨w, by simpa using hwm, hwns⟩
  · -- the head chunk is longer than the width: _handle_long_word splices it
    rw [hbe] at hbk
    set slice := (handleLongWord width (sumLen t) c).1 with hslice
    set rem := (handleLongWord width (sumLen t) c).2 with hrem
    have ht2 : t2 = t ++ [slice] := (congrArg Prod.fst hbk.symm : _)
    have hr2 : r2 = rem :: r := (congrArg Prod.snd hbk.symm : _)
    have hcparts : slice ++ rem = c := handleLong_parts width (sumLen t) c
    have hslice_le : slice.length ≤ width - sumLen t :=
      handleLong_slice_le width (sumLen t) c hw
    have hrem_ne : rem ≠ [] := handleLong_rem_ne width (sumLen t) c hw (by omega)
    have ht2sum : sumLen (t ++ [slice]) ≤ width := by
      rw [sumLen_append, sumLen_cons, sumLen_nil]
      omega
    rw [ht2, hr2]
    refine ⟨hline_of_t2_eq _ ht2sum, ?_, ?_, ?_⟩
    · intro x hx
      simp at hx
      rcases hx with hx | hx
      · rw [hx]; exact hrem_ne
      · exact hall x (hmem_r1 x (hr1 ▸ List.mem_cons_of_mem _ hx))
    · intro _
      have h2 : sumLen c1 = sumLen t + (c.length + sumLen r) := by
        rw [← hparts, hr1, sumLen_append, sumLen_cons]
      have h3 : slice.length + rem.length = c.length := by
        rw [← hcparts]
        simp
      have h4 : sumLen (rem :: r) = rem.length + sumLen r := sumLen_cons _ _
      have h5 : 1 ≤ sumLen t + slice.length := by
        rcases eq_or_ne t [] with ht | ht
        · have hsp : 1 ≤ slice.length := by
            rw [hslice, ht, sumLen_nil]
            exact handleLong_slice_pos width c hw hclen
          omega
        · have := sumLen_pos t ht (fun x hx => hall x (hmem_t x hx))
          omega
      omega
    · intro hdt hex
      obtain ⟨w, hwmem, hwns⟩ := hex
      rcases dropTrail_eq_nil _ hdt with ht | ⟨x, htx, hxws⟩
      · simp at ht
      · have hlen1 : t.length + 1 = 1 := by
          have := congrArg List.length htx
          simpa using this
        have htn : t = [] := List.length_eq_zero.mp (by omega)
        have hsx : slice = x := by
          rw [htn] at htx
          simpa using htx
        rw [← hparts, htn, hr1] at hwmem
        simp at hwmem
        rcases hwmem with hwc | hwm
        · refine ⟨rem, by simp, ?_⟩
          have hslicews : isWsChunk slice = true := by rw [hsx]; exact hxws
          have hcws : isWsChunk (slice ++ rem) = false := by
            rw [hcparts, ← hwc]
            exact hwns
          exact isWsChunk_append_false slice rem hcws hslicews
        · exact ⟨w, by simp [hwm], hwns⟩

theorem wrapStep_eq (width : Nat) (hasLines : Bool) (chunks : List (List Char))
    (t r1 : List (List Char)) (hpk : packChunks width 0 (dropLeadWs hasLines chunks) = (t, r1))
    (t2 r2 : List (List Char)) (hbk : breakLong width t r1 = (t2, r2)) :
    wrapStep width hasLines chunks =
      match dropTrailWsPiece t2 with
      | [] => (none, r2)
      | _ :: _ => (some (dropTrailWsPiece t2).flatten, r2) := by
  simp only [wrapStep]
  rw [hpk]
  dsimp only
  rw [hbk]
  dsimp only
  cases dropTrailWsPiece t2 <;> rfl

theorem wrapStep_spec (width : Nat) (hw : 1 ≤ width) (hasLines : Bool)
    (chunks : List (List Char)) (hne : chunks ≠ []) (hall : ∀ c ∈ chunks, c ≠ []) :
    (∀ line rest, wrapStep width hasLines chunks = (some line, rest) → line.length ≤ width) ∧
    (∀ res rest, wrapStep width hasLines chunks = (res, rest) →
      (∀ c ∈ rest, c ≠ []) ∧ sumLen rest < sumLen chunks) ∧
    (∀ rest, wrapStep width hasLines chunks = (none, rest) →
      (∃ c ∈ chunks, isWsChunk c = false) → ∃ c ∈ rest, isWsChunk c = false) := by
  have hdc := dropLeadWs_cases hasLines chunks
  have hmemc1 : ∀ x ∈ dropLeadWs hasLines chunks, x ∈ chunks := by
    rcases hdc with h | ⟨c0, rest0, hch, hws, h⟩
    · rw [h]; exact fun x hx => hx
    · rw [h, hch]; exact fun x hx => List.mem_cons_of_mem _ hx
  have hallc1 : ∀ c ∈ dropLeadWs hasLines chunks, c ≠ [] := fun c hc => hall c (hmemc1 c hc)
  have hsumle : sumLen (dropLeadWs hasLines chunks) ≤ sumLen chunks := by
    rcases hdc with h | ⟨c0, rest0, hch, hws, h⟩
    · rw [h]
    · rw [h, hch, sumLen_cons]; omega
  rcases hpk : packChunks width 0 (dropLeadWs hasLines chunks) with ⟨t, r1⟩
  rcases hbk : breakLong width t r1 with ⟨t2, r2⟩
  have heq := wrapStep_eq width hasLines chunks t r1 hpk t2 r2 hbk
  obtain ⟨coreLine, coreNe, coreDec, coreWs⟩ :=
    wrapCore_spec width hw (dropLeadWs hasLines chunks) hallc1 t r1 hpk t2 r2 hbk
  refine ⟨?_, ?_, ?_⟩
  · intro line rest hstep
    rw [heq] at hstep
    cases hdt : dropTrailWsPiece t2 with
    | nil => rw [hdt] at hstep; exact absurd hstep (by simp)
    | cons a as =>
      rw [hdt] at hstep
      have hl := coreLine (by rw [hdt]; simp)
      rw [hdt] at hl
      have hline : (a :: as).flatten = line := by
        have := (congrArg Prod.fst hstep : _)
        simpa using this
      rw [← hline]
      exact hl
  · intro res rest hstep
    rw [heq] at hstep
    have hrest : rest = r2 := by
      cases hdt : dropTrailWsPiece t2 <;> rw [hdt] at hstep <;>
        exact (congrArg Prod.snd hstep.symm : _)
    constructor
    · intro c hc
      exact coreNe c (hrest ▸ hc)
    · rcases eq_or_ne (dropLeadWs hasLines chunks) [] with hc1nil | hc1ne
      · have hpknil : packChunks width 0 ([] : List (List Char)) = (t, r1) :=
          hc1nil ▸ hpk
        have ht : t = [] := (congrArg Prod.fst hpknil.symm : _)
        have hr1 : r1 = [] := (congrArg Prod.snd hpknil.symm : _)
        have hbknil : breakLong width ([] : List (List Char)) [] = (t2, r2) := by
          rw [ht, hr1] at hbk
          exact hbk
        have hr2 : r2 = [] := (congrArg Prod.snd hbknil.symm : _)
        rw [hrest, hr2, sumLen_nil]
        exact sumLen_pos chunks hne hall
      · have h1 := coreDec hc1ne
        rw [hrest]
        omega
  · intro rest hstep hex
    rw [heq] at hstep
    cases hdt : dropTrailWsPiece t2 with
    | cons a as =>
      rw [hdt] at hstep
      exact absurd (congrArg Prod.fst hstep : _) (by simp)
    | nil =>
      rw [hdt] at hstep
      have hrest : rest = r2 := (congrArg Prod.snd hstep.symm : _)
      have hexc1 : ∃ c ∈ dropLeadWs hasLines chunks, isWsChunk c = false := by
        rcases hdc with h | ⟨c0, rest0, hch, hws, h⟩
        · rw [h]; exact hex
        · obtain ⟨w, hwmem, hwns⟩ := hex
          rw [hch] at hwmem
          rcases List.mem_cons.mp hwmem with hw0 | hwm
          · rw [hw0, hws] at hwns; simp at hwns
          · exact ⟨w, by rw [h]; exact hwm, hwns⟩
      rw [hrest]
      exact coreWs hdt hexc1

theorem wrapFuel_lines_le (width : Nat) (hw : 1 ≤ width) :
    ∀ (fuel : Nat) (hasLines : Bool) (chunks : List (List Char)),
      (∀ c ∈ chunks, c ≠ []) →
      ∀ line ∈ wrapChunksFuel width fuel hasLines chunks, line.length ≤ width := by
  intro fuel
  induction fuel with
  | zero => intro hasLines chunks _ line hline; simp [wrapChunksFuel] at hline
  | succ f ih =>
    intro hasLines chunks hall line hline
    cases chunks with
    | nil => simp [wrapChunksFuel] at hline
    | cons c0 rest0 =>
      unfold wrapChunksFuel at hline
      rcases hstep : wrapStep width hasLines (c0 :: rest0) with ⟨res, rest⟩
      have spec := wrapStep_spec width hw hasLines (c0 :: rest0) (by simp) hall
      cases res with
      | none =>
        rw [hstep] at hline
        exact ih hasLines rest (spec.2.1 none rest hstep).1 line hline
      | some l =>
        rw [hstep] at hline
        dsimp only at hline
        rcases List.mem_cons.mp hline with h | h
        · rw [h]; exact spec.1 l rest hstep
        · exact ih true rest (spec.2.1 _ _ hstep).1 line h

theorem wrapFuel_ne_nil (width : Nat) (hw : 1 ≤ width) :
    ∀ (fuel : Nat) (hasLines : Bool) (chunks : List (List Char)),
      (∀ c ∈ chunks, c ≠ []) → sumLen chunks < fuel →
      (∃ c ∈ chunks, isWsChunk c = false) →
      wrapChunksFuel width fuel hasLines chunks ≠ [] := by
  intro fuel
  induction fuel with
  | zero => intro _ _ _ h _; omega
  | succ f ih =>
    intro hasLines chunks hall hfuel hex
    cases chunks with
    | nil => obtain ⟨c, hc, _⟩ := hex; simp at hc
    | cons c0 rest0 =>
      unfold wrapChunksFuel
      rcases hstep : wrapStep width hasLines (c0 :: rest0) with ⟨res, rest⟩
      have spec := wrapStep_spec width hw hasLines (c0 :: rest0) (by simp) hall
      cases res with
      | some l =>
        simp
      | none =>
        dsimp only
        have hd := spec.2.1 none rest hstep
        have hlt : sumLen rest < sumLen (c0 :: rest0) := hd.2
        exact ih hasLines rest hd.1 (by omega) (spec.2.2 rest hstep hex)

theorem chunksGo_ne : ∀ (cs cur : List Char), ∀ x ∈ chunksGo cur cs, x ≠ [] := by
  intro cs
  induction cs with
  | nil =>
    intro cur x hx
    unfold chunksGo at hx
    by_cases h : cur.isEmpty
    · simp [h] at hx
    · simp [h] at hx
      rw [hx]
      simp
      exact fun hc => absurd (by rw [hc]; rfl) h
  | cons c rest ih =>
    intro cur x hx
    unfold chunksGo at hx
    cases cur with
    | nil => exact ih [c] x hx
    | cons c0 cs0 =>
      dsimp only at hx
      by_cases h : ((c == ' ') == (c0 == ' ')) = true
      · rw [if_pos h] at hx
        exact ih _ x hx
      · rw [if_neg h] at hx
        rcases List.mem_cons.mp hx with hx | hx
        · rw [hx]; simp
        · exact ih [c] x hx

theorem chunksGo_flatten : ∀ (cs cur : List Char),
    (chunksGo cur cs).flatten = cur.reverse ++ cs := by
  intro cs
  induction cs with
  | nil =>
    intro cur
    unfold chunksGo
    by_cases h : cur.isEmpty
    · have : cur = [] := by cases cur with | nil => rfl | cons a as => simp at h
      simp [h, this]
    · simp [h]
  | cons c rest ih =>
    intro cur
    unfold chunksGo
    cases cur with
    | nil => rw [ih [c]]; simp
    | cons c0 cs0 =>
      dsimp only
      by_cases h : ((c == ' ') == (c0 == ' ')) = true
      · rw [if_pos h, ih (c :: c0 :: cs0)]
        simp
      · rw [if_neg h]
        simp [ih [c]]

theorem expandTabsGo_mem : ∀ (cs : List Char) (col : Nat) (c : Char),
    c ∈ cs → c ≠ '\t' → c ∈ expandTabsGo col cs := by
  intro cs
  induction cs with
  | nil => intro col c hc _; simp at hc
  | cons a rest ih =>
    intro col c hc hnt
    unfold expandTabsGo
    rcases List.mem_cons.mp hc with h | h
    · rw [if_neg (by rw [← h]; exact hnt)]
      by_cases h2 : a = '\n' ∨ a = '\r'
      · rw [if_pos h2, h]; exact List.mem_cons_self _ _
      · rw [if_neg h2, h]; exact List.mem_cons_self _ _
    · by_cases h1 : a = '\t'
      · rw [if_pos h1]
        exact List.mem_append_right _ (ih _ c h hnt)
      · rw [if_neg h1]
        by_cases h2 : a = '\n' ∨ a = '\r'
        · rw [if_pos h2]; exact List.mem_cons_of_mem _ (ih _ c h hnt)
        · rw [if_neg h2]; exact List.mem_cons_of_mem _ (ih _ c h hnt)

theorem munge_mem (cs : List Char) (c : Char) (hc : c ∈ cs) (hns : isPyWs c = false) :
    c ∈ munge cs := by
  have hws : ¬ (c = ' ' ∨ c = '\t' ∨ c = '\n' ∨ c = '\r' ∨ c = '\x0b' ∨ c = '\x0c') := by
    intro hcon
    rcases hcon with h | h | h | h | h | h <;> rw [h] at hns <;> simp [isPyWs] at hns
  push_neg at hws
  obtain ⟨hs, ht, hn, hr, hv, hf⟩ := hws
  unfold munge expandTabs
  have h1 : c ∈ expandTabsGo 0 cs := expandTabsGo_mem cs 0 c hc ht
  have hcond : ¬ ((c == '\t' || c == '\n' || c == '\x0b' || c == '\x0c' || c == '\r') = true) := by
    simp [ht, hn, hv, hf, hr]
  have h2 : (if c == '\t' || c == '\n' || c == '\x0b' || c == '\x0c' || c == '\r' then ' '
      else c) = c := if_neg hcond
  exact List.mem_map.mpr ⟨c, h1, h2⟩

theorem pyStrip_ne_nil_exists (cs : List Char) (h : pyStrip cs ≠ []) :
    ∃ c ∈ cs, isPyWs c = false := by
  by_contra hcon
  push_neg at hcon
  apply h
  unfold pyStrip pyLstrip pyRstrip
  have h1 : cs.reverse.dropWhile isPyWs = [] := by
    rw [List.dropWhile_eq_nil_iff]
    intro x hx
    have hxm : x ∈ cs := List.mem_reverse.mp hx
    have := hcon x hxm
    simpa using this
  rw [h1]
  rfl

theorem textwrap_wrap_le (width : Nat) (text : List Char) (hw : 1 ≤ width) :
    ∀ line ∈ textwrap_wrap width text, line.length ≤ width := by
  intro line hline
  unfold textwrap_wrap at hline
  exact wrapFuel_lines_le width hw _ false _ (chunksGo_ne _ []) line hline

theorem textwrap_wrap_ne_nil (width : Nat) (text : List Char) (hw : 1 ≤ width)
    (hs : pyStrip text ≠ []) : textwrap_wrap width text ≠ [] := by
  unfold textwrap_wrap
  apply wrapFuel_ne_nil width hw _ false _ (chunksGo_ne _ []) (by unfold chunksOf; omega)
  obtain ⟨c, hc, hcws⟩ := pyStrip_ne_nil_exists text hs
  have hcm : c ∈ munge text := munge_mem text c hc hcws
  have hfl : c ∈ (chunksOf (munge text)).flatten := by
    unfold chunksOf
    rw [chunksGo_flatten]
    simpa using hcm
  obtain ⟨chunk, hchunk, hcchunk⟩ := List.mem_flatten.mp hfl
  refine ⟨chunk, hchunk, ?_⟩
  cases hall : chunk.all isPyWs
  · exact hall
  · rw [List.all_eq_true] at hall
    rw [hall c hcchunk] at hcws
    simp at hcws

/-- Claim C8 as amended: with CPython's default `break_long_words=True`
no output line of the wrap ever exceeds a positive width — a word longer
than the width is broken at the width boundary, not kept unbroken on an
overflow line — and a non-blank text always wraps to at least one line. -/
theorem wrap_lines_bounded (width : Nat) (text : List Char) (hw : 1 ≤ width) :
    (∀ line ∈ textwrap_wrap width text, line.length ≤ width) ∧
    (pyStrip text ≠ [] → textwrap_wrap width text ≠ []) :=
  ⟨textwrap_wrap_le width text hw, textwrap_wrap_ne_nil width text hw⟩

/-- Claim C8 amended, witness: a non-blank text wraps to a non-empty
line list at width 5. -/
theorem wrap_lines_bounded_witness : textwrap_wrap 5 "hello world".data ≠ [] :=
  (wrap_lines_bounded 5 "hello world".data (by decide)).2 (by decide)

theorem rstripCommas_append_comma (s : List Char) :
    rstripCommas (s ++ [',']) = rstripCommas s := by
  unfold rstripCommas
  rw [List.reverse_append]
  simp [List.dropWhile_cons]

theorem pyRstrip_append_comma (s : List Char) :
    pyRstrip (s ++ [',']) = s ++ [','] := by
  unfold pyRstrip
  rw [List.reverse_append]
  simp [List.dropWhile_cons, isPyWs]

theorem pyLstrip_append_comma (s : List Char) :
    pyLstrip (s ++ [',']) = if (pyLstrip s).isEmpty then [','] else pyLstrip s ++ [','] := by
  unfold pyLstrip
  rw [List.dropWhile_append]
  by_cases h : (s.dropWhile isPyWs).isEmpty <;>
    simp [h, List.dropWhile_cons, isPyWs]

theorem cleanPiece_append_comma (s : List Char) :
    cleanPiece (s ++ [',']) = rstripCommas (pyLstrip s) := by
  unfold cleanPiece pyStrip
  rw [pyRstrip_append_comma, pyLstrip_append_comma]
  by_cases h : (pyLstrip s).isEmpty
  · rw [if_pos h]
    have he : pyLstrip s = [] := by
      cases hl : pyLstrip s with
      | nil => rfl
      | cons a as => rw [hl] at h; simp at h
    rw [he]
    rfl
  · rw [if_neg h, rstripCommas_append_comma]

theorem cleanPiece_two_commas (s : List Char) :
    cleanPiece (s ++ [',', ',']) = cleanPiece (s ++ [',']) := by
  have h1 : s ++ [',', ','] = (s ++ [',']) ++ [','] := by simp
  rw [h1, cleanPiece_append_comma (s ++ [',']), cleanPiece_append_comma s]
  rw [pyLstrip_append_comma]
  by_cases h : (pyLstrip s).isEmpty
  · rw [if_pos h]
    have he : pyLstrip s = [] := by
      cases hl : pyLstrip s with
      | nil => rfl
      | cons a as => rw [hl] at h; simp at h
    rw [he]
    rfl
  · rw [if_neg h, rstripCommas_append_comma]

/-- Claim C4 as amended: the cleaning step of strategies 2 and 3 strips
every trailing comma (Python `str.rstrip(",")`), not exactly one; an
input ending in two trailing commas is cleaned exactly like one ending
in a single comma, so neither strategy fails on the extra comma. -/
theorem all_trailing_commas_stripped :
    (∀ s : List Char, rstripCommas (s ++ [',']) = rstripCommas s) ∧
    (∀ s : List Char, cleanPiece (s ++ [',', ',']) = cleanPiece (s ++ [','])) ∧
    (∀ s : List Char, strategy2 (s ++ [',', ',']) = strategy2 (s ++ [','])) ∧
    (∀ (acc : List Json) (line : List Char),
      strat3Line acc (line ++ [',', ',']) = strat3Line acc (line ++ [','])) := by
  refine ⟨rstripCommas_append_comma, cleanPiece_two_commas, ?_, ?_⟩
  · intro s
    unfold strategy2
    rw [cleanPiece_two_commas]
  · intro acc line
    unfold strat3Line
    rw [cleanPiece_two_commas]

theorem foldl_append_flatten (g : List Char → List Char) :
    ∀ (rest : List (List Char)) (init : List Char),
      rest.foldl (fun acc l => acc ++ g l) init = init ++ (rest.map g).flatten := by
  intro rest
  induction rest with
  | nil => intro init; simp
  | cons x xs ih =>
    intro init
    simp only [List.foldl_cons, List.map_cons, List.flatten_cons]
    rw [ih]
    simp [List.append_assoc]

theorem format_recordE_ts_ok (dtR : Int → List Char) (record : List (List Char × Json))
    (w : Nat) (trim : Option Nat) (ts : Int)
    (h : pyIntE (dict_get record "timestamp".data (Json.num 0)) = Except.ok ts) :
    format_recordE dtR record w trim true = Except.ok (formatted dtR ts record w trim) := by
  unfold format_recordE formatted
  rw [h]
  simp only [Bool.not_true, Bool.false_eq_true, if_false, List.length_replicate,
    List.length_cons, List.length_nil]
  by_cases hb : (pyStrip (displayText record trim)).isEmpty
  · rw [if_pos hb]
    simp
  · have e2 : (parse_timestamp dtR ts).length + (0 + 1 + 1) =
        (parse_timestamp dtR ts).length + 2 := by omega
    rw [e2]
    have hsne : pyStrip (displayText record trim) ≠ [] := by
      intro hx
      rw [hx] at hb
      simp at hb
    have hwne := textwrap_wrap_ne_nil
      (max (w - ((parse_timestamp dtR ts).length + 2)) 20)
      (displayText record trim) (by omega) hsne
    rcases hlx : textwrap_wrap (max (w - ((parse_timestamp dtR ts).length + 2)) 20)
        (displayText record trim) with _ | ⟨l0, rest⟩
    · exact absurd hlx hwne
    · rw [if_neg hb]
      dsimp only
      rw [foldl_append_flatten (fun l =>
        '\n' :: (List.replicate ((parse_timestamp dtR ts).length + 2) ' ' ++ l)) rest]
      simp [List.append_assoc]

/-- Claim C5 as amended: a record with no `timestamp` key does not raise
— `record.get("timestamp", 0)` substitutes the default `0` and the
record is rendered with the epoch-0 timestamp string; a record whose
`timestamp` is a non-numeric string, however, raises ValueError (see the
counterexample). -/
theorem format_record_default_timestamp (dtR : Int → List Char)
    (record : List (List Char × Json)) (w : Nat) (trim : Option Nat)
    (h : ∀ kv ∈ record, kv.1 ≠ "timestamp".data) :
    format_recordE dtR record w trim true = Except.ok (formatted dtR 0 record w trim) := by
  have hf : record.find? (fun p => decide (p.1 = "timestamp".data)) = none := by
    rw [List.find?_eq_none]
    intro x hx
    simpa using h x hx
  have hget : dict_get record "timestamp".data (Json.num 0) = Json.num 0 := by
    unfold dict_get
    rw [hf]
  apply format_recordE_ts_ok
  rw [hget]
  rfl

/-- Claim C5 amended, witness: a record holding only a `display` key
formats without an error and renders the epoch-0 timestamp. -/
theorem format_record_default_timestamp_witness :
    format_recordE (fun _ => ['T']) [("display".data, Json.str "ok".data)] 50 none true =
      Except.ok ['T', '.', '0', '0', '0', ' ', ' ', 'o', 'k'] :=
  (format_record_default_timestamp (fun _ => ['T']) [("display".data, Json.str "ok".data)]
    50 none (by decide)).trans (by rfl)

/-- Claim C7: with the timestamp shown, the record is rendered from the
timestamp string `tsStr` with an indent of `tsStr.length + 2` spaces:
the display text (blank display giving the single empty line) is wrapped
to width `max (termWidth - (tsStr.length + 2)) 20`, the first wrapped
line is prefixed by `tsStr` and two spaces, and every subsequent line is
prefixed by the indent. -/
theorem format_record_layout (dtR : Int → List Char) (record : List (List Char × Json))
    (w : Nat) (trim : Option Nat) (ts : Int)
    (h : pyIntE (dict_get record "timestamp".data (Json.num 0)) = Except.ok ts) :
    ∃ l0 rest,
      (if (pyStrip (displayText record trim)).isEmpty then [([] : List Char)]
        else textwrap_wrap (max (w - ((parse_timestamp dtR ts).length + 2)) 20)
          (displayText record trim)) = l0 :: rest ∧
      format_recordE dtR record w trim true =
        Except.ok ((parse_timestamp dtR ts) ++ ' ' :: ' ' :: (l0 ++
          (rest.map (fun l => '\n' ::
            (List.replicate ((parse_timestamp dtR ts).length + 2) ' ' ++ l))).flatten)) := by
  have hmain := format_recordE_ts_ok dtR record w trim ts h
  by_cases hb : (pyStrip (displayText record trim)).isEmpty
  · refine ⟨[], [], by rw [if_pos hb], ?_⟩
    rw [hmain]
    unfold formatted
    dsimp only
    rw [if_pos hb]
  · have hsne : pyStrip (displayText record trim) ≠ [] := by
      intro hx
      rw [hx] at hb
      simp at hb
    have hwne := textwrap_wrap_ne_nil
      (max (w - ((parse_timestamp dtR ts).length + 2)) 20)
      (displayText record trim) (by omega) hsne
    rcases hlx : textwrap_wrap (max (w - ((parse_timestamp dtR ts).length + 2)) 20)
        (displayText record trim) with _ | ⟨l0, rest⟩
    · exact absurd hlx hwne
    · refine ⟨l0, rest, by rw [if_neg hb], ?_⟩
      rw [hmain]
      unfold formatted
      dsimp only
      rw [if_neg hb, hlx]

/-- Claim C7 witness: a concrete record rendered with a stub timestamp
string. -/
theorem format_record_layout_witness :
    format_recordE (fun _ => ['T']) [("display".data, Json.str "hi".data)] 80 none true =
      Except.ok ['T', '.', '0', '0', '0', ' ', ' ', 'h', 'i'] := by
  obtain ⟨l0, rest, h1, h2⟩ :=
    format_record_layout (fun _ => ['T']) [("display".data, Json.str "hi".data)] 80 none 0 rfl
  have h1x : [(['h', 'i'] : List Char)] = l0 :: rest := Eq.trans (by rfl) h1
  injection h1x with e1 e2
  rw [h2, ← e1, ← e2]
  rfl

theorem skipJsonWs_le (cs : List Char) : (skipJsonWs cs).length ≤ cs.length := by
  unfold skipJsonWs
  induction cs with
  | nil => simp
  | cons c rest ih =>
    by_cases h : isJsonWs c
    · rw [List.dropWhile_cons_of_pos h]
      simp
      omega
    · rw [List.dropWhile_cons_of_neg h]

theorem stripPre_len : ∀ (pre cs r : List Char), stripPre pre cs = some r →
    r.length + pre.length = cs.length := by
  intro pre
  induction pre with
  | nil =>
    intro cs r h
    unfold stripPre at h
    injection h with h1
    rw [h1]
    simp
  | cons p ps ih =>
    intro cs r h
    unfold stripPre at h
    match cs with
    | [] => exact absurd h (by simp)
    | c :: rest =>
      dsimp only at h
      by_cases hpc : p == c
      · rw [if_pos hpc] at h
        have := ih rest r h
        simp
        omega
      · rw [if_neg hpc] at h
        exact absurd h (by simp)

theorem munchDigits_snd_le : ∀ cs : List Char, (munchDigits cs).2.length ≤ cs.length := by
  intro cs
  induction cs with
  | nil => simp [munchDigits]
  | cons c rest ih =>
    unfold munchDigits
    by_cases h : c.isDigit
    · rw [if_pos h]
      rcases hm : munchDigits rest with ⟨ds, r⟩
      rw [hm] at ih
      simp at ih ⊢
      omega
    · rw [if_neg h]

theorem munch_pair_le (X ds r : List Char) (heq : munchDigits X = (ds, r)) :
    r.length ≤ X.length := by
  have h2 := munchDigits_snd_le X
  rw [heq] at h2
  simpa using h2

theorem fracTok_snd_le (cs : List Char) : (fracTok cs).2.length ≤ cs.length := by
  rw [fracTok.eq_def]
  split
  · split
    · simp
    · rename_i heq
      have h2 := munch_pair_le _ _ _ heq
      simp
      omega
  · simp

theorem expTok_snd_le (cs : List Char) : (expTok cs).2.length ≤ cs.length := by
  rw [expTok.eq_def]
  split
  · split
    · split
      · split
        · split
          · simp
          · rename_i heq
            have h2 := munch_pair_le _ _ _ heq
            simp
            omega
        · split
          · simp
          · rename_i heq
            have h2 := munch_pair_le _ _ _ heq
            simp at h2 ⊢
            omega
      · simp
    · simp
  · simp

theorem intPartTok_le : ∀ (cs ip r : List Char), intPartTok cs = some (ip, r) →
    r.length ≤ cs.length := by
  intro cs ip r h
  rw [intPartTok.eq_def] at h
  split at h
  · injection h with h1
    rename_i rest
    have h2 : rest = r := (congrArg Prod.snd h1 : _)
    rw [← h2]
    simp
  · rename_i c rest hne
    split at h
    · rcases hm : munchDigits rest with ⟨ds, r2⟩
      rw [hm] at h
      dsimp only at h
      injection h with h1
      have h2 : r2 = r := (congrArg Prod.snd h1 : _)
      subst h2
      have h3 := munch_pair_le _ _ _ hm
      simp
      omega
    · exact absurd h (by simp)
  · exact absurd h (by simp)

theorem numTok_le : ∀ (cs : List Char) (v : Json) (r : List Char),
    numTok cs = some (v, r) → r.length ≤ cs.length := by
  intro cs v r h
  unfold numTok at h
  split at h
  rename_i neg cs1 hneg
  dsimp only at h
  have hle : r.length ≤ cs1.length := by
    rcases hip : intPartTok cs1 with _ | ⟨ip, cs2⟩
    · rw [hip] at h
      exact absurd h (by simp)
    · rw [hip] at h
      dsimp only at h
      rcases hfr : fracTok cs2 with ⟨fr, cs3⟩
      rw [hfr] at h
      dsimp only at h
      rcases hex : expTok cs3 with ⟨ex, cs4⟩
      rw [hex] at h
      dsimp only at h
      injection h with h1
      have hr : cs4 = r := (congrArg Prod.snd h1 : _)
      subst hr
      have h2 := intPartTok_le _ _ _ hip
      have h3 := fracTok_snd_le cs2
      rw [hfr] at h3
      have h4 := expTok_snd_le cs3
      rw [hex] at h4
      simp at h3 h4
      omega
  split at hneg
  · rename_i rr
    have h5 : rr = cs1 := (congrArg Prod.snd hneg : _)
    subst h5
    simp
    omega
  · have h5 : cs = cs1 := (congrArg Prod.snd hneg : _)
    subst h5
    exact hle

theorem parseStringBody_le : ∀ (fuel : Nat) (acc cs s r : List Char),
    parseStringBody fuel acc cs = some (s, r) → r.length ≤ cs.length := by
  intro fuel
  induction fuel with
  | zero =>
    intro acc cs s r h
    exact absurd h (by simp [parseStringBody])
  | succ f ih =>
    intro acc cs s r h
    rw [parseStringBody.eq_def] at h
    dsimp only at h
    split at h
    · exact absurd h (by simp)
    · rename_i rest
      injection h with h1
      have h2 : rest = r := (congrArg Prod.snd h1 : _)
      subst h2
      simp
    · rename_i a b c d rest
      rcases hh : hex4 a b c d with _ | n
      · rw [hh] at h
        exact absurd h (by simp)
      · rw [hh] at h
        dsimp only at h
        split at h
        · split at h
          · rename_i a2 b2 c2 d2 rest2
            rcases hh2 : hex4 a2 b2 c2 d2 with _ | m
            · rw [hh2] at h
              dsimp only at h
              have h6 := ih _ _ _ _ h
              simp only [List.length_cons] at h6 ⊢
              omega
            · rw [hh2] at h
              dsimp only at h
              split at h
              · have h6 := ih _ _ _ _ h
                simp only [List.length_cons] at h6 ⊢
                omega
              · have h6 := ih _ _ _ _ h
                simp only [List.length_cons] at h6 ⊢
                omega
          · have h6 := ih _ _ _ _ h
            simp only [List.length_cons] at h6 ⊢
            omega
        · split at h
          · have h6 := ih _ _ _ _ h
            simp only [List.length_cons] at h6 ⊢
            omega
          · have h6 := ih _ _ _ _ h
            simp only [List.length_cons] at h6 ⊢
            omega
    · rename_i e rest x0
      rcases he : escChar e with _ | c2
      · rw [he] at h
        exact absurd h (by simp)
      · rw [he] at h
        dsimp only at h
        have h6 := ih _ _ _ _ h
        simp only [List.length_cons] at h6 ⊢
        omega
    · rename_i c rest x2 x1 x0
      split at h
      · exact absurd h (by simp)
      · have h6 := ih _ _ _ _ h
        simp only [List.length_cons]
        omega

theorem parseString_le (cs s r : List Char) (h : parseString cs = some (s, r)) :
    r.length ≤ cs.length :=
  parseStringBody_le (cs.length + 1) [] cs s r h

theorem parse_le_all : ∀ fuel : Nat,
    (∀ (cs : List Char) (v : Json) (r : List Char),
      parseVal fuel cs = some (v, r) → r.length ≤ cs.length) ∧
    (∀ (cs : List Char) (acc : List Json) (v : Json) (r : List Char),
      parseElems fuel cs acc = some (v, r) → r.length ≤ cs.length) ∧
    (∀ (cs : List Char) (acc : List (List Char × Json)) (v : Json) (r : List Char),
      parseMembers fuel cs acc = some (v, r) → r.length ≤ cs.length) := by
  intro fuel
  induction fuel with
  | zero =>
    refine ⟨?_, ?_, ?_⟩
    · intro cs v r h
      exact absurd h (by simp [parseVal])
    · intro cs acc v r h
      exact absurd h (by simp [parseElems])
    · intro cs acc v r h
      exact absurd h (by simp [parseMembers])
  | succ f ih =>
    obtain ⟨ihV, ihE, ihM⟩ := ih
    refine ⟨?_, ?_, ?_⟩
    · intro cs v r h
      unfold parseVal at h
      split at h
      · rename_i rest
        rcases hp : parseString rest with _ | ⟨k, r1⟩
        · rw [hp] at h
          exact absurd h (by simp)
        · rw [hp] at h
          dsimp only [Option.map] at h
          injection h with h1
          have h2 : r1 = r := (congrArg Prod.snd h1 : _)
          subst h2
          have h3 := parseString_le rest k r1 hp
          simp only [List.length_cons]
          omega
      · rename_i rest
        split at h
        · rename_i r2 heq
          injection h with h1
          have h2 : r2 = r := (congrArg Prod.snd h1 : _)
          subst h2
          have h3 := skipJsonWs_le rest
          rw [heq] at h3
          simp only [List.length_cons] at h3 ⊢
          omega
        · have h3 := ihM _ _ _ _ h
          have h4 := skipJsonWs_le rest
          simp only [List.length_cons]
          omega
      · rename_i rest
        split at h
        · rename_i r2 heq
          injection h with h1
          have h2 : r2 = r := (congrArg Prod.snd h1 : _)
          subst h2
          have h3 := skipJsonWs_le rest
          rw [heq] at h3
          simp only [List.length_cons] at h3 ⊢
          omega
        · have h3 := ihE _ _ _ _ h
          have h4 := skipJsonWs_le rest
          simp only [List.length_cons]
          omega
      · split at h
        · rename_i rest heq
          injection h with h1
          have h2 : rest = r := (congrArg Prod.snd h1 : _)
          subst h2
          have h3 := stripPre_len _ _ _ heq
          omega
        · split at h
          · rename_i rest heq
            injection h with h1
            have h2 : rest = r := (congrArg Prod.snd h1 : _)
            subst h2
            have h3 := stripPre_len _ _ _ heq
            omega
          · split at h
            · rename_i rest heq
              injection h with h1
              have h2 : rest = r := (congrArg Prod.snd h1 : _)
              subst h2
              have h3 := stripPre_len _ _ _ heq
              omega
            · split at h
              · rename_i p heq
                injection h with h1
                rw [h1] at heq
                exact numTok_le _ _ _ heq
              · split at h
                · rename_i rest heq
                  injection h with h1
                  have h2 : rest = r := (congrArg Prod.snd h1 : _)
                  subst h2
                  have h3 := stripPre_len _ _ _ heq
                  omega
                · split at h
                  · rename_i rest heq
                    injection h with h1
                    have h2 : rest = r := (congrArg Prod.snd h1 : _)
                    subst h2
                    have h3 := stripPre_len _ _ _ heq
                    omega
                  · split at h
                    · rename_i rest heq
                      injection h with h1
                      have h2 : rest = r := (congrArg Prod.snd h1 : _)
                      subst h2
                      have h3 := stripPre_len _ _ _ heq
                      omega
                    · exact absurd h (by simp)
    · intro cs acc v r h
      unfold parseElems at h
      rcases hv : parseVal f cs with _ | ⟨v1, r1⟩
      · rw [hv] at h
        exact absurd h (by simp)
      · rw [hv] at h
        dsimp only at h
        have h2 := ihV _ _ _ hv
        have h3 := skipJsonWs_le r1
        split at h
        · rename_i r3 heq
          injection h with h1
          have h4 : r3 = r := (congrArg Prod.snd h1 : _)
          subst h4
          rw [heq] at h3
          simp only [List.length_cons] at h3
          omega
        · rename_i r3 heq
          have h5 := ihE _ _ _ _ h
          have h6 := skipJsonWs_le r3
          rw [heq] at h3
          simp only [List.length_cons] at h3
          omega
        · exact absurd h (by simp)
    · intro cs acc v r h
      unfold parseMembers at h
      split at h
      · rename_i rest
        rcases hp : parseString rest with _ | ⟨k, r1⟩
        · rw [hp] at h
          exact absurd h (by simp)
        · rw [hp] at h
          dsimp only at h
          have hps := parseString_le rest k r1 hp
          have h3 := skipJsonWs_le r1
          split at h
          · rename_i r3 heq1
            rw [heq1] at h3
            simp only [List.length_cons] at h3
            rcases hv : parseVal f (skipJsonWs r3) with _ | ⟨v5, r5⟩
            · rw [hv] at h
              exact absurd h (by simp)
            · rw [hv] at h
              dsimp only at h
              have h4 := ihV _ _ _ hv
              have h5 := skipJsonWs_le r3
              have h6 := skipJsonWs_le r5
              split at h
              · rename_i r7 heq2
                injection h with h1
                have h7 : r7 = r := (congrArg Prod.snd h1 : _)
                subst h7
                rw [heq2] at h6
                simp only [List.length_cons] at h6 ⊢
                omega
              · rename_i r7 heq2
                have h8 := ihM _ _ _ _ h
                have h9 := skipJsonWs_le r7
                rw [heq2] at h6
                simp only [List.length_cons] at h6 ⊢
                omega
              · exact absurd h (by simp)
          · exact absurd h (by simp)
      · exact absurd h (by simp)

theorem parseVal_obj_lt : ∀ (fuel : Nat) (rest : List Char) (v : Json) (r : List Char),
    parseVal fuel ('{' :: rest) = some (v, r) → r.length < rest.length + 1 := by
  intro fuel rest v r h
  match fuel with
  | 0 => exact absurd h (by simp [parseVal])
  | f + 1 =>
    unfold parseVal at h
    split at h
    · rename_i rest2 heq
      exact absurd heq (by simp)
    · rename_i rest2 heq
      injection heq with _ h0
      subst h0
      split at h
      · rename_i r2 heq2
        injection h with h1
        have h2 : r2 = r := (congrArg Prod.snd h1 : _)
        subst h2
        have h3 := skipJsonWs_le rest
        rw [heq2] at h3
        simp only [List.length_cons] at h3
        omega
      · have h3 := (parse_le_all f).2.2 _ _ _ _ h
        have h4 := skipJsonWs_le rest
        omega
    · rename_i rest2 heq
      exact absurd heq (by simp)
    · rename_i x2 x1 x0
      exact absurd rfl (x1 rest)

theorem findFrom_brace : ∀ (cs : List Char) (off : Nat), findFrom cs = some off →
    off < cs.length ∧ ∃ t, cs.drop off = '{' :: t := by
  intro cs
  induction cs with
  | nil =>
    intro off h
    exact absurd h (by simp [findFrom])
  | cons c rest ih =>
    intro off h
    unfold findFrom at h
    by_cases hc : c == '{'
    · rw [if_pos hc] at h
      injection h with h1
      subst h1
      refine ⟨by simp, rest, ?_⟩
      simp [(by simpa using hc : c = '{')]
    · rw [if_neg hc] at h
      rcases ho : findFrom rest with _ | o
      · rw [ho] at h
        exact absurd h (by simp)
      · rw [ho] at h
        dsimp only [Option.map] at h
        injection h with h1
        subst h1
        obtain ⟨h2, t, h3⟩ := ih o ho
        refine ⟨by simp; omega, t, by simpa using h3⟩

theorem raw_decode_brace_bounds (text : List Char) (start : Nat) (t : List Char)
    (hdrop : text.drop start = '{' :: t) (v : Json) (e : Nat)
    (h : raw_decode text start = some (v, e)) : start < e ∧ e ≤ text.length := by
  unfold raw_decode at h
  dsimp only at h
  rw [hdrop] at h
  rcases hv : parseVal (parserFuel ('{' :: t)) ('{' :: t) with _ | ⟨v1, r1⟩
  · rw [hv] at h
    exact absurd h (by simp)
  · rw [hv] at h
    dsimp only at h
    injection h with h1
    have he : text.length - r1.length = e := (congrArg Prod.snd h1 : _)
    have hlt := parseVal_obj_lt _ _ _ _ hv
    have hlen : ('{' :: t).length = text.length - start := by
      rw [← hdrop]
      exact List.length_drop start text
    simp only [List.length_cons] at hlt hlen
    omega

theorem scanStep_progress (text : List Char) (pos : Nat) (r : Option Json) (pos2 : Nat)
    (h : scanStep text pos = some (r, pos2)) : pos < pos2 ∧ pos2 ≤ text.length := by
  unfold scanStep at h
  rcases hf : findFrom (text.drop pos) with _ | off
  · rw [hf] at h
    exact absurd h (by simp)
  · rw [hf] at h
    dsimp only at h
    obtain ⟨hofflt, t, hdrop⟩ := findFrom_brace _ _ hf
    rw [List.drop_drop] at hdrop
    have hld := List.length_drop pos text
    have hposoff : pos + off < text.length := by omega
    rcases hr : raw_decode text (pos + off) with _ | ⟨v, e⟩
    · rw [hr] at h
      dsimp only at h
      injection h with h1
      have h2 : pos + off + 1 = pos2 := (congrArg Prod.snd h1 : _)
      omega
    · rw [hr] at h
      dsimp only at h
      injection h with h1
      have h2 : e = pos2 := (congrArg Prod.snd h1 : _)
      have h3 := raw_decode_brace_bounds text (pos + off) t hdrop v e hr
      omega

theorem scanAux_append (text : List Char) : ∀ (fuel pos : Nat) (acc : List Json),
    scanAux text fuel pos acc = acc ++ scanAux text fuel pos [] := by
  intro fuel
  induction fuel with
  | zero =>
    intro pos acc
    simp [scanAux]
  | succ f ih =>
    intro pos acc
    unfold scanAux
    cases hs : scanStep text pos with
    | none => simp
    | some pr =>
      rcases pr with ⟨r, pos2⟩
      dsimp only
      rw [ih pos2 (acc ++ r.toList), ih pos2 ([] ++ r.toList)]
      simp [List.append_assoc]

theorem scanAux_ample (text : List Char) : ∀ (fuel extra pos : Nat) (acc : List Json),
    text.length + 1 ≤ fuel + pos →
    scanAux text (fuel + extra) pos acc = scanAux text fuel pos acc := by
  intro fuel
  induction fuel with
  | zero =>
    intro extra pos acc hle
    rw [Nat.zero_add]
    have hdrop : text.drop pos = [] := by
      rw [List.drop_eq_nil_iff]
      omega
    have hstep : scanStep text pos = none := by
      unfold scanStep
      rw [hdrop]
      rfl
    cases extra with
    | zero => rfl
    | succ e2 =>
      unfold scanAux
      rw [hstep]
  | succ f ih =>
    intro extra pos acc hle
    have hs2 : f + 1 + extra = (f + extra) + 1 := by omega
    rw [hs2]
    unfold scanAux
    cases hs : scanStep text pos with
    | none => rfl
    | some pr =>
      rcases pr with ⟨r, pos2⟩
      dsimp only
      have hp := scanStep_progress text pos r pos2 hs
      exact ih extra pos2 (acc ++ r.toList) (by omega)

/-- Claim C9: the strategy-4 brace scan makes strict forward progress —
every loop iteration moves the scan position strictly forward and never
past the end of the text, so the `text.length + 1` fuel of `strategy4`
is ample (any extra fuel changes nothing) and the collected objects are
appended in scan order. -/
theorem scan_progress_bounded :
    (∀ (text : List Char) (pos : Nat) (r : Option Json) (pos2 : Nat),
      scanStep text pos = some (r, pos2) → pos < pos2 ∧ pos2 ≤ text.length) ∧
    (∀ (text : List Char) (fuel extra pos : Nat) (acc : List Json),
      text.length + 1 ≤ fuel + pos →
      scanAux text (fuel + extra) pos acc = scanAux text fuel pos acc) ∧
    (∀ (text : List Char) (fuel pos : Nat) (acc : List Json),
      scanAux text fuel pos acc = acc ++ scanAux text fuel pos []) :=
  ⟨fun text pos r pos2 h => scanStep_progress text pos r pos2 h,
   fun text fuel extra pos acc h => scanAux_ample text fuel extra pos acc h,
   fun text fuel pos acc => scanAux_append text fuel pos acc⟩

/-- Claim C9 witness: on the text `"{}"` the first scan step decodes the
object and advances from 0 to 2; extra fuel beyond the ample bound is
irrelevant and the accumulator is purely appended to. -/
theorem scan_progress_bounded_witness :
    (0 < 2 ∧ 2 ≤ (['{', '}'] : List Char).length) ∧
    scanAux ['{', '}'] (3 + 5) 0 [] = scanAux ['{', '}'] 3 0 [] ∧
    scanAux ['{', '}'] 3 0 [Json.null] = [Json.null] ++ scanAux ['{', '}'] 3 0 [] :=
  ⟨scan_progress_bounded.1 ['{', '}'] 0 (some (Json.obj [])) 2 rfl,
   scan_progress_bounded.2.1 ['{', '}'] 3 5 0 [] (by decide),
   scan_progress_bounded.2.2 ['{', '}'] 3 0 [Json.null]⟩

theorem digit_ne (c d : Char) (h : c.isDigit = true) (hd : d.isDigit = false) :
    (c == d) = false := by
  cases hbe : c == d
  · rfl
  · have hcd : c = d := by simpa using hbe
    subst hcd
    rw [h] at hd
    exact absurd hd (by simp)

theorem isPyWs_digit (c : Char) (h : c.isDigit = true) : isPyWs c = false := by
  unfold isPyWs
  rw [digit_ne c ' ' h (by decide), digit_ne c '\t' h (by decide),
    digit_ne c '\n' h (by decide), digit_ne c '\r' h (by decide),
    digit_ne c '\x0b' h (by decide), digit_ne c '\x0c' h (by decide),
    digit_ne c '\x1c' h (by decide), digit_ne c '\x1d' h (by decide),
    digit_ne c '\x1e' h (by decide), digit_ne c '\x1f' h (by decide),
    digit_ne c '\x85' h (by decide), digit_ne c '\xa0' h (by decide)]
  rfl

theorem isJsonWs_digit (c : Char) (h : c.isDigit = true) : isJsonWs c = false := by
  unfold isJsonWs
  rw [digit_ne c ' ' h (by decide), digit_ne c '\t' h (by decide),
    digit_ne c '\n' h (by decide), digit_ne c '\r' h (by decide)]
  rfl

theorem comma_ne_digit (c : Char) (h : c.isDigit = true) : (c == ',') = false :=
  digit_ne c ',' h (by decide)

theorem munchDigits_parts : ∀ cs : List Char,
    cs = (munchDigits cs).1 ++ (munchDigits cs).2 ∧
    ∀ c ∈ (munchDigits cs).1, c.isDigit = true := by
  intro cs
  induction cs with
  | nil => exact ⟨rfl, by simp [munchDigits]⟩
  | cons c rest ih =>
    unfold munchDigits
    by_cases h : c.isDigit
    · rw [if_pos h]
      rcases hm : munchDigits rest with ⟨ds, r⟩
      rw [hm] at ih
      obtain ⟨ih1, ih2⟩ := ih
      dsimp only
      refine ⟨?_, ?_⟩
      · dsimp only at ih1
        rw [List.cons_append, ← ih1]
      · intro x hx
        rcases List.mem_cons.mp hx with hx | hx
        · rw [hx]; exact h
        · exact ih2 x hx
    · rw [if_neg h]
      exact ⟨rfl, by simp⟩

theorem intPartTok_parts : ∀ (cs ip rest : List Char), intPartTok cs = some (ip, rest) →
    cs = ip ++ rest ∧ ip ≠ [] ∧ ∀ c ∈ ip, c.isDigit = true := by
  intro cs ip rest h
  rw [intPartTok.eq_def] at h
  split at h
  · rename_i t
    injection h with h1
    have h2 : ['0'] = ip := (congrArg Prod.fst h1 : _)
    have h3 : t = rest := (congrArg Prod.snd h1 : _)
    subst h2
    subst h3
    exact ⟨rfl, by simp, by intro c hc; simp at hc; rw [hc]; decide⟩
  · rename_i c t hne
    split at h
    · rename_i hd
      rcases hm : munchDigits t with ⟨ds, r⟩
      rw [hm] at h
      dsimp only at h
      injection h with h1
      have h2 : c :: ds = ip := (congrArg Prod.fst h1 : _)
      have h3 : r = rest := (congrArg Prod.snd h1 : _)
      subst h2
      subst h3
      obtain ⟨hp1, hp2⟩ := munchDigits_parts t
      rw [hm] at hp1 hp2
      dsimp only at hp1 hp2
      refine ⟨by rw [List.cons_append, ← hp1], by simp, ?_⟩
      intro x hx
      rcases List.mem_cons.mp hx with hx | hx
      · rw [hx]; exact hd
      · exact hp2 x hx
    · exact absurd h (by simp)
  · exact absurd h (by simp)

theorem fracTok_parts : ∀ (cs : List Char) (fr : Option (List Char)) (rest : List Char),
    fracTok cs = (fr, rest) →
    rest = cs ∨ ∃ pre ds, cs = pre ++ ds ++ rest ∧ ds ≠ [] ∧ ∀ c ∈ ds, c.isDigit = true := by
  intro cs fr rest h
  rw [fracTok.eq_def] at h
  split at h
  · rename_i t
    split at h
    · left
      exact (congrArg Prod.snd h : _).symm
    · rename_i ds r hds heq
      right
      obtain ⟨hp1, hp2⟩ := munchDigits_parts t
      rw [heq] at hp1 hp2
      dsimp only at hp1 hp2
      have h3 : r = rest := (congrArg Prod.snd h : _)
      subst h3
      refine ⟨['.'], ds, ?_, hds, hp2⟩
      simp [hp1]
  · left
    exact (congrArg Prod.snd h : _).symm

theorem expTok_parts : ∀ (cs : List Char) (ex : Option (Bool × List Char)) (rest : List Char),
    expTok cs = (ex, rest) →
    rest = cs ∨ ∃ pre ds, cs = pre ++ ds ++ rest ∧ ds ≠ [] ∧ ∀ c ∈ ds, c.isDigit = true := by
  intro cs ex rest h
  rw [expTok.eq_def] at h
  split at h
  · rename_i c t
    split at h
    · split at h
      · rename_i s t2
        split at h
        · split at h
          · left
            exact (congrArg Prod.snd h : _).symm
          · rename_i ds r hds heq
            right
            obtain ⟨hp1, hp2⟩ := munchDigits_parts t2
            rw [heq] at hp1 hp2
            dsimp only at hp1 hp2
            have h3 : r = rest := (congrArg Prod.snd h : _)
            subst h3
            refine ⟨[c, s], ds, ?_, hds, hp2⟩
            simp [hp1]
        · split at h
          · left
            exact (congrArg Prod.snd h : _).symm
          · rename_i ds r hds heq
            right
            obtain ⟨hp1, hp2⟩ := munchDigits_parts (s :: t2)
            rw [heq] at hp1 hp2
            dsimp only at hp1 hp2
            have h3 : r = rest := (congrArg Prod.snd h : _)
            subst h3
            refine ⟨[c], ds, ?_, hds, hp2⟩
            simp [hp1]
      · left
        exact (congrArg Prod.snd h : _).symm
    · left
      exact (congrArg Prod.snd h : _).symm
  · left
    exact (congrArg Prod.snd h : _).symm

theorem numTok_parts : ∀ (cs : List Char) (v : Json) (r : List Char),
    numTok cs = some (v, r) →
    (∃ c t, cs = c :: t ∧ (c = '-' ∨ c.isDigit = true)) ∧
    (∃ pre ds, cs = pre ++ ds ++ r ∧ ds ≠ [] ∧ ∀ c ∈ ds, c.isDigit = true) := by
  intro cs v r h
  unfold numTok at h
  split at h
  rename_i neg cs1 hneg
  dsimp only at h
  have hmain : (∃ c t, cs1 = c :: t ∧ c.isDigit = true) ∧
      (∃ pre ds, cs1 = pre ++ ds ++ r ∧ ds ≠ [] ∧ ∀ c ∈ ds, c.isDigit = true) := by
    rcases hip : intPartTok cs1 with _ | ⟨ip, cs2⟩
    · rw [hip] at h
      exact absurd h (by simp)
    · rw [hip] at h
      dsimp only at h
      rcases hfr : fracTok cs2 with ⟨fr, cs3⟩
      rw [hfr] at h
      dsimp only at h
      rcases hex : expTok cs3 with ⟨ex, cs4⟩
      rw [hex] at h
      dsimp only at h
      injection h with h1
      have hr : cs4 = r := (congrArg Prod.snd h1 : _)
      subst hr
      obtain ⟨hip1, hipne, hipd⟩ := intPartTok_parts _ _ _ hip
      refine ⟨?_, ?_⟩
      · rcases ip with _ | ⟨i0, ip2⟩
        · exact absurd rfl hipne
        · exact ⟨i0, ip2 ++ cs2, by simp [hip1], hipd i0 (by simp)⟩
      · rcases expTok_parts _ _ _ hex with he | ⟨pre3, ds3, he1, he2, he3⟩
        · subst he
          rcases fracTok_parts _ _ _ hfr with hf | ⟨pre2, ds2, hf1, hf2, hf3⟩
          · subst hf
            exact ⟨[], ip, by simp [hip1], hipne, hipd⟩
          · exact ⟨ip ++ pre2, ds2, by simp [hip1, hf1, List.append_assoc], hf2, hf3⟩
        · rcases fracTok_parts _ _ _ hfr with hf | ⟨pre2, ds2, hf1, hf2, hf3⟩
          · subst hf
            exact ⟨ip ++ pre3, ds3, by simp [hip1, he1, List.append_assoc], he2, he3⟩
          · exact ⟨ip ++ pre2 ++ ds2 ++ pre3, ds3,
              by simp [hip1, hf1, he1, List.append_assoc], he2, he3⟩
  obtain ⟨⟨c1, t1, hc1, hd1⟩, ⟨pre, ds, hp, hne, hdig⟩⟩ := hmain
  split at hneg
  · rename_i rr
    have h5 : rr = cs1 := (congrArg Prod.snd hneg : _)
    subst h5
    exact ⟨⟨'-', rr, rfl, Or.inl rfl⟩, ⟨'-' :: pre, ds, by simp [hp], hne, hdig⟩⟩
  · have h5 : cs = cs1 := (congrArg Prod.snd hneg : _)
    subst h5
    exact ⟨⟨c1, t1, hc1, Or.inr hd1⟩, ⟨pre, ds, hp, hne, hdig⟩⟩

theorem numTok_full_shape : ∀ (cs : List Char) (v : Json), numTok cs = some (v, []) →
    (∃ c t, cs = c :: t ∧ (c = '-' ∨ c.isDigit = true)) ∧
    (∃ t c, cs = t ++ [c] ∧ c.isDigit = true) := by
  intro cs v h
  obtain ⟨hhead, pre, ds, hp, hne, hdig⟩ := numTok_parts _ _ _ h
  refine ⟨hhead, ?_⟩
  rcases List.eq_nil_or_concat ds with h0 | ⟨ds2, d, hd⟩
  · exact absurd h0 hne
  · refine ⟨pre ++ ds2, d, ?_, hdig d (by simp [hd])⟩
    rw [hp, hd]
    simp [List.append_assoc]

theorem pyLstrip_id_head (c : Char) (t : List Char) (h : isPyWs c = false) :
    pyLstrip (c :: t) = c :: t := by
  unfold pyLstrip
  rw [List.dropWhile_cons_of_neg (by simp [h])]

theorem pyRstrip_id_last (t : List Char) (c : Char) (h : isPyWs c = false) :
    pyRstrip (t ++ [c]) = t ++ [c] := by
  unfold pyRstrip
  have h1 : (t ++ [c]).reverse = c :: t.reverse := by simp
  rw [h1, List.dropWhile_cons_of_neg (by simp [h]), ← h1, List.reverse_reverse]

theorem rstripCommas_id_last (t : List Char) (c : Char) (h : (c == ',') = false) :
    rstripCommas (t ++ [c]) = t ++ [c] := by
  unfold rstripCommas
  have h1 : (t ++ [c]).reverse = c :: t.reverse := by simp
  rw [h1, List.dropWhile_cons_of_neg (by simp [h]), ← h1, List.reverse_reverse]

theorem cleanPiece_id_of_num (cs : List Char) (v : Json) (h : numTok cs = some (v, [])) :
    cleanPiece cs = cs := by
  obtain ⟨⟨c0, t0, hh, hd0⟩, ⟨t1, c1, ht, hd1⟩⟩ := numTok_full_shape _ _ h
  have hlws : isPyWs c1 = false := isPyWs_digit c1 hd1
  have hlcm : (c1 == ',') = false := comma_ne_digit c1 hd1
  have hhws : isPyWs c0 = false := by
    rcases hd0 with h0 | h0
    · rw [h0]; decide
    · exact isPyWs_digit c0 h0
  unfold cleanPiece pyStrip
  rw [ht, pyRstrip_id_last t1 c1 hlws, ← ht, hh, pyLstrip_id_head c0 t0 hhws, ← hh,
    ht, rstripCommas_id_last t1 c1 hlcm, ← ht]

theorem munchDigits_append : ∀ (cs ds rest rr : List Char),
    munchDigits cs = (ds, rest) →
    munchDigits (cs ++ ']' :: rr) = (ds, rest ++ ']' :: rr) := by
  intro cs
  induction cs with
  | nil =>
    intro ds rest rr h
    unfold munchDigits at h
    have h1 : ([] : List Char) = ds := (congrArg Prod.fst h : _)
    have h2 : ([] : List Char) = rest := (congrArg Prod.snd h : _)
    subst h1
    subst h2
    simp only [List.nil_append]
    unfold munchDigits
    rw [if_neg (by decide)]
  | cons c t ih =>
    intro ds rest rr h
    rw [List.cons_append]
    unfold munchDigits at h ⊢
    by_cases hd : c.isDigit
    · rw [if_pos hd] at h ⊢
      rcases hm : munchDigits t with ⟨ds2, r2⟩
      rw [hm] at h
      dsimp only at h
      have h1 : c :: ds2 = ds := (congrArg Prod.fst h : _)
      have h2 : r2 = rest := (congrArg Prod.snd h : _)
      subst h1
      subst h2
      rw [ih ds2 r2 rr hm]
    · rw [if_neg hd] at h ⊢
      have h1 : ([] : List Char) = ds := (congrArg Prod.fst h : _)
      have h2 : c :: t = rest := (congrArg Prod.snd h : _)
      subst h1
      subst h2
      rfl

theorem intPartTok_append : ∀ (cs ip rest rr : List Char),
    intPartTok cs = some (ip, rest) →
    intPartTok (cs ++ ']' :: rr) = some (ip, rest ++ ']' :: rr) := by
  intro cs ip rest rr h
  rw [intPartTok.eq_def] at h
  split at h
  · rename_i t
    injection h with h1
    have h2 : ['0'] = ip := (congrArg Prod.fst h1 : _)
    have h3 : t = rest := (congrArg Prod.snd h1 : _)
    subst h2
    subst h3
    rw [List.cons_append, intPartTok.eq_def]
    split
    · rename_i t2 heq
      injection heq with _ ht
      rw [← ht]
    · rename_i c2 t2 hne2 heq
      injection heq with hc _
      exact absurd hc.symm hne2
    · rename_i heq
      exact absurd heq (by simp)
  · rename_i c t hne
    split at h
    · rename_i hd
      rcases hm : munchDigits t with ⟨ds2, r2⟩
      rw [hm] at h
      dsimp only at h
      injection h with h1
      have h2 : c :: ds2 = ip := (congrArg Prod.fst h1 : _)
      have h3 : r2 = rest := (congrArg Prod.snd h1 : _)
      subst h2
      subst h3
      rw [List.cons_append, intPartTok.eq_def]
      split
      · rename_i t2 heq
        injection heq with hc _
        exact absurd hc hne
      · rename_i c2 t2 hne2 heq
        injection heq with hc ht
        subst hc
        rw [← ht, if_pos hd, munchDigits_append t ds2 r2 rr hm]
      · rename_i heq
        exact absurd heq (by simp)
    · exact absurd h (by simp)
  · exact absurd h (by simp)

theorem fracTok_append : ∀ (cs : List Char) (fr : Option (List Char)) (rest rr : List Char),
    fracTok cs = (fr, rest) →
    fracTok (cs ++ ']' :: rr) = (fr, rest ++ ']' :: rr) := by
  intro cs fr rest rr h
  rw [fracTok.eq_def] at h
  split at h
  · rename_i t
    rw [List.cons_append, fracTok.eq_def]
    split
    · rename_i t2 heq
      injection heq with _ ht
      subst ht
      split at h
      · rename_i snd heq2
        have h1 : (none : Option (List Char)) = fr := (congrArg Prod.fst h : _)
        have h2 : '.' :: t = rest := (congrArg Prod.snd h : _)
        subst h1
        subst h2
        rw [munchDigits_append t [] snd rr heq2]
        rfl
      · rename_i ds r hds heq2
        have h1 : some ds = fr := (congrArg Prod.fst h : _)
        have h2 : r = rest := (congrArg Prod.snd h : _)
        subst h1
        subst h2
        rw [munchDigits_append t ds r rr heq2]
        rcases ds with _ | ⟨d, ds2⟩
        · exact absurd rfl hds
        · rfl
    · rename_i hcon
      exact absurd rfl (hcon (t ++ ']' :: rr))
  · rename_i hcon
    have h1 : (none : Option (List Char)) = fr := (congrArg Prod.fst h : _)
    have h2 : cs = rest := (congrArg Prod.snd h : _)
    subst h1
    subst h2
    rw [fracTok.eq_def]
    split
    · rename_i t2 heq
      rcases cs with _ | ⟨c, t⟩
      · rw [List.nil_append] at heq
        injection heq with hc _
        exact absurd hc (by decide)
      · rw [List.cons_append] at heq
        injection heq with hc _
        exact absurd (show (c :: t : List Char) = '.' :: t from by rw [hc]) (hcon t)
    · rfl

theorem expTok_append : ∀ (cs : List Char) (ex : Option (Bool × List Char)) (rest rr : List Char),
    expTok cs = (ex, rest) →
    expTok (cs ++ ']' :: rr) = (ex, rest ++ ']' :: rr) := by
  intro cs ex rest rr h
  rcases cs with _ | ⟨c, t⟩
  · rw [expTok.eq_def] at h
    dsimp only at h
    have h1 : (none : Option (Bool × List Char)) = ex := (congrArg Prod.fst h : _)
    have h2 : ([] : List Char) = rest := (congrArg Prod.snd h : _)
    subst h1
    subst h2
    simp only [List.nil_append]
    rw [expTok.eq_def]
    dsimp only
    rw [if_neg (by decide)]
  · rw [List.cons_append]
    rw [expTok.eq_def] at h ⊢
    dsimp only at h ⊢
    by_cases hce : (c == 'e' || c == 'E') = true
    · rw [if_pos hce] at h ⊢
      rcases t with _ | ⟨s, t2⟩
      · dsimp only at h
        have h1 : (none : Option (Bool × List Char)) = ex := (congrArg Prod.fst h : _)
        have h2 : (c :: [] : List Char) = rest := (congrArg Prod.snd h : _)
        subst h1
        subst h2
        simp only [List.nil_append]
        rw [if_neg (by decide),
          show munchDigits (']' :: rr) = ([], ']' :: rr) from by
            unfold munchDigits; rw [if_neg (by decide)]]
        rfl
      · rw [List.cons_append]
        dsimp only at h ⊢
        by_cases hs : (s == '+' || s == '-') = true
        · rw [if_pos hs] at h ⊢
          rcases hm : munchDigits t2 with ⟨ds, r⟩
          rw [hm] at h
          rw [munchDigits_append t2 ds r rr hm]
          rcases ds with _ | ⟨d, ds2⟩
          · dsimp only at h ⊢
            have h1 : (none : Option (Bool × List Char)) = ex := (congrArg Prod.fst h : _)
            have h2 : (c :: s :: t2 : List Char) = rest := (congrArg Prod.snd h : _)
            subst h1
            subst h2
            rfl
          · dsimp only at h ⊢
            have h1 : some ((s == '-'), d :: ds2) = ex := (congrArg Prod.fst h : _)
            have h2 : r = rest := (congrArg Prod.snd h : _)
            subst h1
            subst h2
            rfl
        · rw [if_neg hs] at h ⊢
          rcases hm : munchDigits (s :: t2) with ⟨ds, r⟩
          rw [hm] at h
          have hma := munchDigits_append (s :: t2) ds r rr hm
          rw [List.cons_append] at hma
          rw [hma]
          rcases ds with _ | ⟨d, ds2⟩
          · dsimp only at h ⊢
            have h1 : (none : Option (Bool × List Char)) = ex := (congrArg Prod.fst h : _)
            have h2 : (c :: s :: t2 : List Char) = rest := (congrArg Prod.snd h : _)
            subst h1
            subst h2
            rfl
          · dsimp only at h ⊢
            have h1 : some (false, d :: ds2) = ex := (congrArg Prod.fst h : _)
            have h2 : r = rest := (congrArg Prod.snd h : _)
            subst h1
            subst h2
            rfl
    · rw [if_neg hce] at h ⊢
      have h1 : (none : Option (Bool × List Char)) = ex := (congrArg Prod.fst h : _)
      have h2 : (c :: t : List Char) = rest := (congrArg Prod.snd h : _)
      subst h1
      subst h2
      rfl

theorem numTok_chain_append (cs1 : List Char) (neg : Bool) (v : Json) (rest rr : List Char)
    (h : (match intPartTok cs1 with
          | none => none
          | some (ip, cs2) =>
            match fracTok cs2 with
            | (fr, cs3) =>
              match expTok cs3 with
              | (ex, cs4) => some (numValue neg ip fr ex, cs4)) = some (v, rest)) :
    (match intPartTok (cs1 ++ ']' :: rr) with
      | none => none
      | some (ip, cs2) =>
        match fracTok cs2 with
        | (fr, cs3) =>
          match expTok cs3 with
          | (ex, cs4) => some (numValue neg ip fr ex, cs4)) = some (v, rest ++ ']' :: rr) := by
  rcases hip : intPartTok cs1 with _ | ⟨ip, cs2⟩
  · rw [hip] at h
    exact absurd h (by simp)
  · rw [hip] at h
    rw [intPartTok_append cs1 ip cs2 rr hip]
    dsimp only at h ⊢
    rcases hfr : fracTok cs2 with ⟨fr, cs3⟩
    rw [hfr] at h
    rw [fracTok_append cs2 fr cs3 rr hfr]
    dsimp only at h ⊢
    rcases hex : expTok cs3 with ⟨ex, cs4⟩
    rw [hex] at h
    rw [expTok_append cs3 ex cs4 rr hex]
    dsimp only at h ⊢
    injection h with h1
    have ha : numValue neg ip fr ex = v := (congrArg Prod.fst h1 : _)
    have hb : cs4 = rest := (congrArg Prod.snd h1 : _)
    rw [ha, hb]

theorem numTok_append (cs : List Char) (v : Json) (rest rr : List Char)
    (h : numTok cs = some (v, rest)) :
    numTok (cs ++ ']' :: rr) = some (v, rest ++ ']' :: rr) := by
  obtain ⟨⟨c0, t0, hsh, hd0⟩, _⟩ := numTok_parts _ _ _ h
  subst hsh
  unfold numTok at h
  split at h
  rename_i neg cs1 hneg
  dsimp only at h
  rw [List.cons_append, numTok.eq_def]
  split
  rename_i neg2 cs12 hneg2
  dsimp only
  by_cases hc : c0 = '-'
  · subst hc
    split at hneg
    · rename_i t2 heq
      injection heq with _ ht
      subst ht
      have e1 : true = neg := (congrArg Prod.fst hneg : _)
      have e2 : t0 = cs1 := (congrArg Prod.snd hneg : _)
      subst e1
      subst e2
      split at hneg2
      · rename_i t3 heq2
        injection heq2 with _ ht2
        subst ht2
        have e3 : true = neg2 := (congrArg Prod.fst hneg2 : _)
        have e4 : t0 ++ ']' :: rr = cs12 := (congrArg Prod.snd hneg2 : _)
        subst e3
        subst e4
        exact numTok_chain_append t0 true v rest rr h
      · rename_i hcon
        exact absurd rfl (hcon (t0 ++ ']' :: rr))
    · rename_i hcon
      exact absurd rfl (hcon t0)
  · split at hneg
    · rename_i t2 heq
      injection heq with hc0 _
      exact absurd hc0 hc
    · have e1 : false = neg := (congrArg Prod.fst hneg : _)
      have e2 : c0 :: t0 = cs1 := (congrArg Prod.snd hneg : _)
      subst e1
      subst e2
      split at hneg2
      · rename_i t3 heq2
        injection heq2 with hc0 _
        exact absurd hc0 hc
      · have e3 : false = neg2 := (congrArg Prod.fst hneg2 : _)
        have e4 : c0 :: (t0 ++ ']' :: rr) = cs12 := (congrArg Prod.snd hneg2 : _)
        subst e3
        subst e4
        have hres := numTok_chain_append (c0 :: t0) false v rest rr h
        rw [List.cons_append] at hres
        exact hres

theorem numHead_ne (c d : Char) (h : c = '-' ∨ c.isDigit = true) (hd : d.isDigit = false)
    (hdm : d ≠ '-') : (d == c) = false := by
  cases hbe : d == c
  · rfl
  · have hdc : d = c := by simpa using hbe
    subst hdc
    rcases h with h0 | h0
    · exact absurd h0 hdm
    · rw [h0] at hd
      exact absurd hd (by simp)

theorem parseVal_num : ∀ (f : Nat) (cs : List Char) (v : Json) (rest : List Char),
    numTok cs = some (v, rest) → parseVal (f + 1) cs = some (v, rest) := by
  intro f cs v rest h
  obtain ⟨⟨c0, t0, hsh, hd0⟩, _⟩ := numTok_parts _ _ _ h
  subst hsh
  unfold parseVal
  split
  · rename_i t2 heq
    injection heq with hc _
    rcases hd0 with h0 | h0
    · rw [h0] at hc
      exact absurd hc (by decide)
    · rw [hc] at h0
      exact absurd h0 (by decide)
  · rename_i t2 heq
    injection heq with hc _
    rcases hd0 with h0 | h0
    · rw [h0] at hc
      exact absurd hc (by decide)
    · rw [hc] at h0
      exact absurd h0 (by decide)
  · rename_i t2 heq
    injection heq with hc _
    rcases hd0 with h0 | h0
    · rw [h0] at hc
      exact absurd hc (by decide)
    · rw [hc] at h0
      exact absurd h0 (by decide)
  · have hn : stripPre "null".data (c0 :: t0) = none := by
      have hb : ('n' == c0) = false := numHead_ne c0 'n' hd0 (by decide) (by decide)
      rw [stripPre.eq_def]
      dsimp only
      rw [hb]
      simp
    have ht : stripPre "true".data (c0 :: t0) = none := by
      have hb : ('t' == c0) = false := numHead_ne c0 't' hd0 (by decide) (by decide)
      rw [stripPre.eq_def]
      dsimp only
      rw [hb]
      simp
    have hf : stripPre "false".data (c0 :: t0) = none := by
      have hb : ('f' == c0) = false := numHead_ne c0 'f' hd0 (by decide) (by decide)
      rw [stripPre.eq_def]
      dsimp only
      rw [hb]
      simp
    rw [hn]
    dsimp only
    rw [ht]
    dsimp only
    rw [hf]
    dsimp only
    rw [h]

theorem skipJsonWs_cons_id (c : Char) (t : List Char) (h : isJsonWs c = false) :
    skipJsonWs (c :: t) = c :: t := by
  unfold skipJsonWs
  rw [List.dropWhile_cons_of_neg (by simp [h])]

theorem numHead_not_jsonWs (c : Char) (h : c = '-' ∨ c.isDigit = true) :
    isJsonWs c = false := by
  rcases h with h0 | h0
  · rw [h0]
    decide
  · exact isJsonWs_digit c h0

theorem json_loads_num (cs : List Char) (v : Json) (h : numTok cs = some (v, [])) :
    json_loads cs = some v := by
  obtain ⟨⟨c0, t0, hsh, hd0⟩, _⟩ := numTok_parts _ _ _ h
  unfold json_loads
  dsimp only
  rw [hsh, skipJsonWs_cons_id c0 t0 (numHead_not_jsonWs c0 hd0)]
  have hfe : parserFuel (c0 :: t0) = (2 * t0.length + 9) + 1 := by
    unfold parserFuel
    simp
    omega
  rw [hfe, parseVal_num (2 * t0.length + 9) (c0 :: t0) v [] (by rw [← hsh]; exact h)]
  rfl

theorem parseVal_arr_step (f : Nat) (rest : List Char) :
    parseVal (f + 1) ('[' :: rest) =
      (match skipJsonWs rest with
        | ']' :: r2 => some (Json.arr [], r2)
        | r1 => parseElems f r1 []) := by
  unfold parseVal
  split
  · rename_i t2 heq
    injection heq with hc _
    exact absurd hc (by decide)
  · rename_i t2 heq
    injection heq with hc _
    exact absurd hc (by decide)
  · rename_i t2 heq
    injection heq with _ ht
    rw [ht]
  · rename_i x2 x1 x0
    exact absurd rfl (x0 rest)

theorem parseVal_wrap_num (f : Nat) (cs : List Char) (v : Json)
    (h : numTok cs = some (v, [])) :
    parseVal (f + 3) ('[' :: (cs ++ [']'])) = some (Json.arr [v], []) := by
  obtain ⟨⟨c0, t0, hsh, hd0⟩, _⟩ := numTok_parts _ _ _ h
  have hws : isJsonWs c0 = false := numHead_not_jsonWs c0 hd0
  have hf3 : f + 3 = (f + 2) + 1 := by omega
  rw [hf3, parseVal_arr_step (f + 2) (cs ++ [']'])]
  rw [hsh, List.cons_append, skipJsonWs_cons_id c0 (t0 ++ [']']) hws]
  split
  · rename_i r2 heq
    injection heq with hc _
    rcases hd0 with h0 | h0
    · rw [h0] at hc
      exact absurd hc (by decide)
    · rw [hc] at h0
      exact absurd h0 (by decide)
  · have happ := numTok_append cs v [] [] h
    simp only [List.nil_append] at happ
    rw [hsh, List.cons_append] at happ
    unfold parseElems
    rw [parseVal_num f (c0 :: (t0 ++ [']'])) v [']'] happ]
    dsimp only
    rw [skipJsonWs_cons_id ']' [] (by decide)]
    rfl

theorem numTok_val_shape : ∀ (cs : List Char) (v : Json) (rest : List Char),
    numTok cs = some (v, rest) →
    (∃ n, v = Json.num n) ∨ (∃ m e, v = Json.flt m e) := by
  intro cs v rest h
  unfold numTok at h
  split at h
  rename_i neg cs1 hneg
  dsimp only at h
  rcases hip : intPartTok cs1 with _ | ⟨ip, cs2⟩
  · rw [hip] at h
    exact absurd h (by simp)
  · rw [hip] at h
    dsimp only at h
    rcases hfr : fracTok cs2 with ⟨fr, cs3⟩
    rw [hfr] at h
    dsimp only at h
    rcases hex : expTok cs3 with ⟨ex, cs4⟩
    rw [hex] at h
    dsimp only at h
    injection h with h1
    have ha : numValue neg ip fr ex = v := (congrArg Prod.fst h1 : _)
    rw [← ha]
    unfold numValue
    rcases fr with _ | fds <;> rcases ex with _ | ⟨eneg, eds⟩
    · exact Or.inl ⟨_, rfl⟩
    · exact Or.inr ⟨_, _, rfl⟩
    · exact Or.inr ⟨_, _, rfl⟩
    · exact Or.inr ⟨_, _, rfl⟩

theorem strategy1_num_none (cs : List Char) (v : Json) (h : numTok cs = some (v, [])) :
    strategy1 cs = none := by
  unfold strategy1
  rw [json_loads_num cs v h]
  rcases numTok_val_shape _ _ _ h with ⟨n, hv⟩ | ⟨m, e, hv⟩ <;> subst hv <;> rfl

theorem strategy2_num (cs : List Char) (v : Json) (h : numTok cs = some (v, [])) :
    strategy2 cs = some [v] := by
  unfold strategy2
  rw [cleanPiece_id_of_num cs v h]
  have hfe : parserFuel ('[' :: (cs ++ [']'])) = (2 * cs.length + 9) + 3 := by
    unfold parserFuel
    simp
    omega
  unfold json_loads
  dsimp only
  rw [skipJsonWs_cons_id '[' (cs ++ [']']) (by decide), hfe,
    parseVal_wrap_num (2 * cs.length + 9) cs v h]
  rfl

theorem extract_records_num (cs : List Char) (v : Json) (h : numTok cs = some (v, [])) :
    extract_records cs = [v] := by
  unfold extract_records
  rw [strategy1_num_none cs v h]
  dsimp only
  rw [strategy2_num cs v h]

/-- Claim C10: an input that is a single valid JSON scalar literal other
than a string — a keyword (`null`, `true`, `false`, `NaN`, `Infinity`,
`-Infinity`) or a complete number-literal match — is returned by
`extract_records` as a one-element list holding that scalar: strategy 1
falls through (the parse succeeds but yields a non-list non-dict) and
strategy 2's bracket wrap parses as a one-element array. -/
theorem scalar_literal_extracted : ∀ (cs : List Char) (v : Json),
    scalarLit cs = some v → extract_records cs = [v] := by
  intro cs v h
  unfold scalarLit at h
  split_ifs at h with h1 h2 h3 h4 h5 h6
  · injection h with hv
    subst hv
    rw [h1]
    rfl
  · injection h with hv
    subst hv
    rw [h2]
    rfl
  · injection h with hv
    subst hv
    rw [h3]
    rfl
  · injection h with hv
    subst hv
    rw [h4]
    rfl
  · injection h with hv
    subst hv
    rw [h5]
    rfl
  · injection h with hv
    subst hv
    rw [h6]
    rfl
  · split at h
    · rename_i v1 heq
      injection h with hv
      subst hv
      exact extract_records_num cs v1 heq
    · exact absurd h (by simp)

/-- Claim C10 witness: the input `"42"` is a scalar number literal and
`extract_records` returns exactly `[42]`. -/
theorem scalar_literal_extracted_witness :
    scalarLit ['4', '2'] = some (Json.num 42) ∧
    extract_records ['4', '2'] = [Json.num 42] :=
  ⟨rfl, scalar_literal_extracted ['4', '2'] (Json.num 42) rfl⟩

end Chformat
